import Mathlib

/-!
# Embedded patches of the loader (`Source/Atmosphere/ldr_patcher.cpp`)

A shallow embedding of `ams::ldr::ApplyEmbeddedPatchesToModule` and of the
helpers it calls, followed by theorems about it.

Conventions of the embedding.

* The mapped image is seen from its base address: index `k < 2^64` of the
  memory stands for the byte at the address `mapped_nso + k`, the sum being a
  `uintptr_t` sum, taken modulo `2^64`.  The image is the indices below
  `mapped_size`; the memory is a total function on indices, so a write past
  `mapped_size` is a write the model can see.  A destination
  `mapped_nso + offset` wraps as the code's sum does: the byte `j` of a copy to
  `offset` lands on the index `(offset + j) mod 2^64`, so that a copy to
  `2^64 - 1` writes the byte before the image and then byte 0 of the image.
* `memcpy` also records what it copied in a log, so that "the call writes index
  `k`" has a meaning even when the byte written equals the old one.
* The two included files (`ldr_embedded_usb_patches.inc`, `ldr_oc_patch.inc`)
  and the header declaring `ro::ModuleId` are not part of the sources at hand:
  every constant they declare is a field of `Tables`, and the theorems hold for
  all values of these fields unless a hypothesis says otherwise.
-/

namespace Ldr

/-! ## Data model -/

/-- A `u8`. The code only copies and compares bytes, so no range is imposed. -/
abbrev Byte := Nat

/-- The type `ro::ModuleId`: a struct whose only member is the byte array `data`. -/
structure ModuleId where
  data : List Byte
deriving DecidableEq, Repr

/-- The struct `EmbeddedPatchEntry` (lines 109-113): `data` points to the bytes
to copy, `size` is the number of bytes the code copies from there. -/
structure EmbeddedPatchEntry where
  offset : Nat
  data : List Byte
  size : Nat
deriving DecidableEq, Repr

/-- The struct `EmbeddedPatch` (lines 115-119): `entries` stands for the array
the pointer designates, of which the code visits the first `num_entries`. -/
structure EmbeddedPatch where
  module_id : ModuleId
  num_entries : Nat
  entries : List EmbeddedPatchEntry
deriving DecidableEq, Repr

/-- The values of `spl::SocType` the code distinguishes. -/
inductive SocType where
  | SocType_Erista
  | SocType_Mariko
deriving DecidableEq, Repr

/-- One `memcpy` into the image, as recorded in the log: the index of the first
byte written and the bytes copied there. -/
structure Write where
  dst : Nat
  bytes : List Byte
deriving DecidableEq, Repr

/-- The memory seen from `mapped_nso`, and the log of the copies made into it. -/
structure Image where
  mem : Nat → Byte
  log : List Write

/-- The constants of the two included files and `sizeof(ro::ModuleId)`.
An array of `u32` offsets is a list of naturals, an object that is only ever
the source of a `memcpy` is the list of its bytes, and an array of such objects
is the list of its elements. `PtmOffsetInterval_bits` is the width of the
unsigned type in which the product `PtmOffsetInterval * j` of lines 192-197 is
computed, `j` being a `u32`: 32 if the constant is at most 32 bits wide, 64 if
it is 64 bits wide. -/
structure Tables where
  sizeof_ModuleId : Nat
  Usb30ForceEnablePatches : List EmbeddedPatch
  PcvModuleId : List ModuleId
  CpuTablesFreeSpace : List Nat
  GpuTablesFreeSpace : List Nat
  NewCpuTables : List Byte
  NewGpuTables : List Byte
  MaxCpuClockOffset : List Nat
  NewMaxCpuClock : List Byte
  Reg1MaxGpuOffset : List Nat
  Reg2MaxGpuOffset : List Nat
  Reg1NewMaxGpuClock : List (List Byte)
  Reg2NewMaxGpuClock : List (List Byte)
  CpuVoltageLimitOffsets : List (List Nat)
  NewCpuVoltageLimit : List Byte
  CpuVoltageOldTableCoeff : List (List Nat)
  NewCpuVoltageCoeff : List Byte
  EmcFreqOffsets : List (List Nat)
  PtmModuleId : List ModuleId
  PtmEmcOffsetStart : List Nat
  PtmOffsetInterval : Nat
  PtmOffsetInterval_bits : Nat
  PtmCpuBoostOffset : Nat
  AmModuleId : List ModuleId
  AmCopyrightOffset : List Nat
  AmCopyrightPatch : List Byte

/-- The platform query service `spl`. `IsUsb30ForceEnabled k` is the answer the
service gives to the query made after `k` earlier ones, so that the service may
change its answer over time. -/
structure Spl where
  IsUsb30ForceEnabled : Nat → Bool
  GetSocType : SocType

/-- The globals `g_got_embedded_patch_settings` and `g_force_enable_usb30`
(lines 36-38), with a count of the queries made to `spl::IsUsb30ForceEnabled`. -/
structure Settings where
  g_got_embedded_patch_settings : Bool
  g_force_enable_usb30 : Bool
  spl_queries : Nat
deriving DecidableEq, Repr

/-! ## Primitives -/

/-- The position in a copy of the byte that lands on the index `k`: `k - dst`
modulo `2^64`. -/
def Write.pos (w : Write) (k : Nat) : Nat :=
  (k + 2 ^ 64 - w.dst % 2 ^ 64) % 2 ^ 64

/-- The indices a logged copy writes. The byte `j` of the copy lands on the
index `(dst + j) mod 2^64`, the destination being a 64-bit sum: the index
`k < 2^64` is written when its position in the copy is below the length. -/
def Write.covers (w : Write) (k : Nat) : Prop :=
  k < 2 ^ 64 ∧ w.pos k < w.bytes.length

instance (w : Write) (k : Nat) : Decidable (w.covers k) := by
  unfold Write.covers; infer_instance

/-- The memory after one copy: the indices the copy covers hold the bytes
copied, every other index keeps its byte. -/
def Write.apply (w : Write) (mem : Nat → Byte) : Nat → Byte :=
  fun k => if w.covers k then w.bytes.getD (w.pos k) 0 else mem k

/-- The bytes that `memcpy` reads: the first `n` bytes at `src`. A read past the
end of the list stands for a read past the source object, and yields `0`. -/
def readSrc (src : List Byte) (n : Nat) : List Byte :=
  (List.range n).map (fun j => src.getD j 0)

/-- The call `std::memcpy(mapped_nso + dst, src, n)`: the indices `dst`, ...,
`dst + n - 1`, taken modulo `2^64` as the 64-bit destination is, receive the
first `n` bytes of `src`, whatever `mapped_size` is, and the copy is appended to
the log with its destination as written in the source. -/
def memcpy (img : Image) (dst : Nat) (src : List Byte) (n : Nat) : Image :=
  let w : Write := ⟨dst, readSrc src n⟩
  { mem := w.apply img.mem
    log := img.log ++ [w] }

/-- The `n` bytes of the memory from index `off` on. -/
def readBytes (mem : Nat → Byte) (off n : Nat) : List Byte :=
  (List.range n).map (fun j => mem (off + j))

/-- The object representation of a `u32` on the little-endian target. -/
def u32Bytes (v : Nat) : List Byte :=
  [v % 256, v / 256 % 256, v / 65536 % 256, v / 16777216 % 256]

/-- Two logged copies write no index in common. -/
def Write.disjoint (a b : Write) : Prop :=
  ∀ k, ¬ (a.covers k ∧ b.covers k)

/-- Two copies have no index in common exactly when one of them is empty or,
going up modulo `2^64` from the start of either, the start of the other is not
reached before the end. -/
instance (a b : Write) : Decidable (a.disjoint b) :=
  decidable_of_iff
    (a.bytes.length = 0 ∨ b.bytes.length = 0 ∨
      (a.bytes.length ≤ (b.dst + 2 ^ 64 - a.dst % 2 ^ 64) % 2 ^ 64 ∧
        b.bytes.length ≤ (a.dst + 2 ^ 64 - b.dst % 2 ^ 64) % 2 ^ 64))
    (by
      unfold Write.disjoint Write.covers Write.pos
      constructor
      · intro h k hk
        omega
      · intro h
        by_contra hn
        have h1 := h (a.dst % 2 ^ 64)
        have h2 := h (b.dst % 2 ^ 64)
        omega)

/-! ## The functions of the source -/

/-- Lines 58-67. The mutex is not modelled: calls are sequential. -/
def IsUsb30ForceEnabled (P : Spl) (g : Settings) : Bool × Settings :=
  if !g.g_got_embedded_patch_settings then
    let v := P.IsUsb30ForceEnabled g.spl_queries
    (v, { g_got_embedded_patch_settings := true
          g_force_enable_usb30 := v
          spl_queries := g.spl_queries + 1 })
  else
    (g.g_force_enable_usb30, g)

/-- Lines 69-74. -/
def GetEmcClock : Nat := 1862400

/-- Lines 76-78. -/
def GetCpuBoostClock : Nat := 1963500

/-- Lines 141-142: the first `sizeof(module_id.data)` bytes at `module_id_data`. -/
def MakeModuleId (T : Tables) (module_id_data : List Byte) : ModuleId :=
  ⟨module_id_data.take T.sizeof_ModuleId⟩

/-- Lines 148-151, the body of the loop over the entries of a patch: the sum
`entry.offset + entry.size` is a sum of 64-bit unsigned integers, and so is the
destination `mapped_nso + entry.offset` of the copy (see `memcpy`). -/
def applyEntry (mapped_size : Nat) (img : Image) (entry : EmbeddedPatchEntry) : Image :=
  if (entry.offset + entry.size) % 2 ^ 64 ≤ mapped_size then
    memcpy img entry.offset entry.data entry.size
  else
    img

/-- Lines 147-152, the loop `for (size_t i = 0; i < patch.num_entries; ++i)`:
it visits `patch.entries[0]`, ..., `patch.entries[num_entries - 1]` in order. -/
def applyEntries (mapped_size : Nat) (patch : EmbeddedPatch) (img : Image) : Image :=
  (patch.entries.take patch.num_entries).foldl (applyEntry mapped_size) img

/-- Lines 146-153, the body of the loop over `Usb30ForceEnablePatches`. -/
def applyPatch (module_id : ModuleId) (mapped_size : Nat) (img : Image)
    (patch : EmbeddedPatch) : Image :=
  if patch.module_id = module_id then applyEntries mapped_size patch img else img

/-- Lines 145-154, the loop over `Usb30ForceEnablePatches`. -/
def applyUsb30ForceEnablePatches (T : Tables) (module_id : ModuleId) (mapped_size : Nat)
    (img : Image) : Image :=
  T.Usb30ForceEnablePatches.foldl (applyPatch module_id mapped_size) img

/-- A loop `for (u32 j = 0; j < sizeof(row)/sizeof(u32); j++)` copying the same
object `src` to every offset of `row` (lines 171-181). -/
def copyAtEach (row : List Nat) (src : List Byte) (img : Image) : Image :=
  row.foldl (fun acc off => memcpy acc off src src.length) img

/-- The value of `sizeof(arr[i])` for an array `arr`: the size of the element
type. It is fixed at compile time and does not depend on `i`; every element of
the array has that size, and it is read here off the first one. -/
def sizeofElem (arr : List (List Byte)) : Nat := (arr.headD []).length

/-- Lines 161-181, what the hardware-clock loop does at a matching index `i`.
The source of the two copies of lines 167-168 is the array itself, that is its
first byte, and their size is the size of one element. -/
def applyPcv (T : Tables) (EmcClock : Nat) (i : Nat) (img : Image) : Image :=
  let img := memcpy img (T.CpuTablesFreeSpace.getD i 0) T.NewCpuTables T.NewCpuTables.length
  let img := memcpy img (T.GpuTablesFreeSpace.getD i 0) T.NewGpuTables T.NewGpuTables.length
  let img := memcpy img (T.MaxCpuClockOffset.getD i 0) T.NewMaxCpuClock T.NewMaxCpuClock.length
  let img := memcpy img (T.Reg1MaxGpuOffset.getD i 0) T.Reg1NewMaxGpuClock.flatten
    (sizeofElem T.Reg1NewMaxGpuClock)
  let img := memcpy img (T.Reg2MaxGpuOffset.getD i 0) T.Reg2NewMaxGpuClock.flatten
    (sizeofElem T.Reg2NewMaxGpuClock)
  let img := copyAtEach (T.CpuVoltageLimitOffsets.getD i []) T.NewCpuVoltageLimit img
  let img := copyAtEach (T.CpuVoltageOldTableCoeff.getD i []) T.NewCpuVoltageCoeff img
  copyAtEach (T.EmcFreqOffsets.getD i []) (u32Bytes EmcClock) img

/-- Lines 159-183, the loop over `PcvModuleId`. -/
def applyPcvPatches (T : Tables) (module_id : ModuleId) (EmcClock : Nat) (img : Image) : Image :=
  (List.range T.PcvModuleId.length).foldl
    (fun acc i =>
      if T.PcvModuleId.getD i ⟨[]⟩ = module_id then applyPcv T EmcClock i acc else acc)
    img

/-- Lines 191-194, one round of the first inner loop of the secondary family.
The product `PtmOffsetInterval * j` is a product of fixed width, the sums are
64-bit sums (see `memcpy`). -/
def applyPtmEmc (T : Tables) (EmcClock : Nat) (i : Nat) (img : Image) (j : Nat) : Image :=
  let img := memcpy img
    (T.PtmEmcOffsetStart.getD i 0 + T.PtmOffsetInterval * j % 2 ^ T.PtmOffsetInterval_bits)
    (u32Bytes EmcClock) 4
  memcpy img
    (T.PtmEmcOffsetStart.getD i 0 + T.PtmOffsetInterval * j % 2 ^ T.PtmOffsetInterval_bits + 0x4)
    (u32Bytes EmcClock) 4

/-- Lines 195-198, one round of the second inner loop of the secondary family,
with the same fixed-width product. -/
def applyPtmBoost (T : Tables) (CpuBoostClock : Nat) (i : Nat) (img : Image) (j : Nat) : Image :=
  let img := memcpy img
    (T.PtmEmcOffsetStart.getD i 0 + T.PtmCpuBoostOffset
      + T.PtmOffsetInterval * j % 2 ^ T.PtmOffsetInterval_bits)
    (u32Bytes CpuBoostClock) 4
  memcpy img
    (T.PtmEmcOffsetStart.getD i 0 + T.PtmCpuBoostOffset
      + T.PtmOffsetInterval * j % 2 ^ T.PtmOffsetInterval_bits + 0x4)
    (u32Bytes CpuBoostClock) 4

/-- Lines 191-198, what the secondary clock-table loop does at a matching index. -/
def applyPtm (T : Tables) (EmcClock CpuBoostClock : Nat) (i : Nat) (img : Image) : Image :=
  let img := (List.range 16).foldl (applyPtmEmc T EmcClock i) img
  (List.range 2).foldl (applyPtmBoost T CpuBoostClock i) img

/-- Lines 189-200, the loop over `PtmModuleId`. -/
def applyPtmPatches (T : Tables) (module_id : ModuleId) (EmcClock CpuBoostClock : Nat)
    (img : Image) : Image :=
  (List.range T.PtmModuleId.length).foldl
    (fun acc i =>
      if T.PtmModuleId.getD i ⟨[]⟩ = module_id then applyPtm T EmcClock CpuBoostClock i acc
      else acc)
    img

/-- Lines 157-201, the block guarded by the SoC type. The products of line 185
and line 187 are `u32` products. -/
def applyMarikoPatches (T : Tables) (P : Spl) (module_id : ModuleId) (img : Image) : Image :=
  let EmcClock := GetEmcClock
  if P.GetSocType = SocType.SocType_Mariko ∧ EmcClock ≠ 0 then
    let img := applyPcvPatches T module_id EmcClock img
    let EmcClock := GetEmcClock * 1000 % 2 ^ 32
    let CpuBoostClock := GetCpuBoostClock * 1000 % 2 ^ 32
    applyPtmPatches T module_id EmcClock CpuBoostClock img
  else
    img

/-- Lines 203-207, the loop over `AmModuleId`. -/
def applyAmPatches (T : Tables) (module_id : ModuleId) (img : Image) : Image :=
  (List.range T.AmModuleId.length).foldl
    (fun acc i =>
      if T.AmModuleId.getD i ⟨[]⟩ = module_id then
        memcpy acc (T.AmCopyrightOffset.getD i 0) T.AmCopyrightPatch T.AmCopyrightPatch.length
      else acc)
    img

/-- Lines 139-208. The result is the state of the settings cache and the image
after the call. -/
def ApplyEmbeddedPatchesToModule (T : Tables) (P : Spl) (module_id_data : List Byte)
    (mapped_size : Nat) (g : Settings) (img : Image) : Settings × Image :=
  let module_id := MakeModuleId T module_id_data
  let r := IsUsb30ForceEnabled P g
  let img := if r.1 then applyUsb30ForceEnablePatches T module_id mapped_size img else img
  let img := applyMarikoPatches T P module_id img
  (r.2, applyAmPatches T module_id img)

/-! ## The lazy caches called in sequence -/

/-- The results of `n` calls made one after the other to a function that reads
and updates a state, and the state after the last call. -/
def repeatCalls {σ : Type} (f : σ → Bool × σ) : Nat → σ → List Bool × σ
  | 0, s => ([], s)
  | n + 1, s =>
    let r := f s
    let rest := repeatCalls f n r.2
    (r.1 :: rest.1, rest.2)

/-! ## The removable storage and the external patches -/

/-- Line 23. -/
def NsoPatchesDirectory : String := "exefs_patches"

/-- Line 30. -/
def LoaderSdMountName : String := "#amsldr-sdpatch"

/-- Line 27, `sizeof(NsoHeader)`; the header declaring `NsoHeader` is not in the
sources, its size is a parameter. -/
def NsoPatchesProtectedSize (sizeof_NsoHeader : Nat) : Nat := sizeof_NsoHeader

/-- Line 28. -/
def NsoPatchesProtectedOffset (sizeof_NsoHeader : Nat) : Nat := sizeof_NsoHeader

/-- The services `cfg` and `fs`. `IsSdCardInitialized k` is the answer to the
query made after `k` earlier ones; `MountSdCard name k` tells whether the mount
attempted after `k` earlier attempts succeeds. -/
structure Storage where
  IsSdCardInitialized : Nat → Bool
  MountSdCard : String → Nat → Bool

/-- The global `g_mounted_sd` (line 34), with counts of the calls made to
`cfg::IsSdCardInitialized` and to `fs::MountSdCard`. -/
structure SdState where
  g_mounted_sd : Bool
  cfg_queries : Nat
  mount_calls : Nat
deriving DecidableEq, Repr

/-- Lines 40-56. The mutex is not modelled: calls are sequential. -/
def EnsureSdCardMounted (F : Storage) (s : SdState) : Bool × SdState :=
  if s.g_mounted_sd then
    (true, s)
  else if !F.IsSdCardInitialized s.cfg_queries then
    (false, { s with cfg_queries := s.cfg_queries + 1 })
  else if !F.MountSdCard LoaderSdMountName s.mount_calls then
    (false, { s with cfg_queries := s.cfg_queries + 1, mount_calls := s.mount_calls + 1 })
  else
    (true, { g_mounted_sd := true
             cfg_queries := s.cfg_queries + 1
             mount_calls := s.mount_calls + 1 })

/-- The arguments of one call to `ams::patcher::LocateAndApplyIpsPatchesToModule`. -/
structure IpsCall where
  mount_name : String
  patches_dir : String
  protected_size : Nat
  protected_offset : Nat
  module_id : ModuleId
  mapped_module : Nat
  mapped_size : Nat
deriving DecidableEq, Repr

/-- What the external patches can touch: the image, and the list of the calls
made to the external engine. -/
structure IpsWorld where
  img : Image
  engine_calls : List IpsCall

/-- Lines 128-136. The external engine is a parameter: `engine c img` is the
image it leaves when called with the arguments `c` on the image `img`. -/
def LocateAndApplyIpsPatchesToModule (T : Tables) (sizeof_NsoHeader : Nat) (F : Storage)
    (engine : IpsCall → Image → Image) (module_id_data : List Byte)
    (mapped_nso mapped_size : Nat) (s : SdState) (w : IpsWorld) : SdState × IpsWorld :=
  let r := EnsureSdCardMounted F s
  if !r.1 then
    (r.2, w)
  else
    let module_id := MakeModuleId T module_id_data
    let c : IpsCall :=
      { mount_name := LoaderSdMountName
        patches_dir := NsoPatchesDirectory
        protected_size := NsoPatchesProtectedSize sizeof_NsoHeader
        protected_offset := NsoPatchesProtectedOffset sizeof_NsoHeader
        module_id := module_id
        mapped_module := mapped_nso
        mapped_size := mapped_size }
    (r.2, { img := engine c w.img, engine_calls := w.engine_calls ++ [c] })

/-! ## Module identities written in hexadecimal -/

/-- Lines 80-89. A character is its code (`'0'` is 48, `'9'` 57, `'A'` 65, `'F'`
70, `'a'` 97, `'f'` 102). The result is `none` when `AMS_ASSUME` does not hold:
the function is `consteval`, and such a call does not compile. The value
returned is converted to `u8`. -/
def ParseNybble (c : Nat) : Option Nat :=
  if (48 ≤ c ∧ c ≤ 57) ∨ (65 ≤ c ∧ c ≤ 70) ∨ (97 ≤ c ∧ c ≤ 102) then
    if 48 ≤ c ∧ c ≤ 57 then some ((c - 48 + 0x0) % 256)
    else if 65 ≤ c ∧ c ≤ 70 then some ((c - 65 + 0xA) % 256)
    else some ((c - 97 + 0xa) % 256)
  else none

/-- Lines 96-104, the loop of `ParseModuleId`: `str` is what is left of the
string (the terminating `0` is the end of the list, or a `0` in it), `ofs` the
index of the next byte, `data` the bytes of `module_id`. The result is `none`
when an `AMS_ASSUME` does not hold. The byte stored is converted to `u8`. -/
def ParseModuleIdLoop (size : Nat) : List Nat → Nat → List Byte → Option (List Byte)
  | [], _, data => some data
  | c0 :: rest, ofs, data =>
    if c0 = 0 then some data
    else if ¬ ofs < size then none
    else
      match rest with
      | [] => none
      | c1 :: rest2 =>
        if c1 = 0 then none
        else
          match ParseNybble c0, ParseNybble c1 with
          | some hi, some lo =>
            ParseModuleIdLoop size rest2 (ofs + 1)
              (data.set ofs (((hi <<< 4) ||| (lo <<< 0)) % 256))
          | _, _ => none

/-- Lines 91-107: `module_id = {}` is `size` zero bytes, `size` being
`sizeof(module_id)`. -/
def ParseModuleId (size : Nat) (str : List Nat) : Option ModuleId :=
  (ParseModuleIdLoop size str 0 (List.replicate size 0)).map ModuleId.mk

/-! ## Devices of the proofs -/

/-- The memory after a list of copies made in order. -/
def replay (ops : List Write) (mem : Nat → Byte) : Nat → Byte :=
  ops.foldl (fun m w => w.apply m) mem

/-- A piece of the program only makes copies whose destination and content do
not depend on the image: there is a list of copies that it appends to the log
and plays on the memory. -/
def Writer (F : Image → Image) : Prop :=
  ∃ ops : List Write, ∀ img : Image, F img = ⟨replay ops img.mem, img.log ++ ops⟩

/-! ## Concrete inputs used by the examples -/

/-- Tables in which every array is empty. -/
def emptyTables : Tables :=
  { sizeof_ModuleId := 0x20
    Usb30ForceEnablePatches := []
    PcvModuleId := []
    CpuTablesFreeSpace := []
    GpuTablesFreeSpace := []
    NewCpuTables := []
    NewGpuTables := []
    MaxCpuClockOffset := []
    NewMaxCpuClock := []
    Reg1MaxGpuOffset := []
    Reg2MaxGpuOffset := []
    Reg1NewMaxGpuClock := []
    Reg2NewMaxGpuClock := []
    CpuVoltageLimitOffsets := []
    NewCpuVoltageLimit := []
    CpuVoltageOldTableCoeff := []
    NewCpuVoltageCoeff := []
    EmcFreqOffsets := []
    PtmModuleId := []
    PtmEmcOffsetStart := []
    PtmOffsetInterval := 0
    PtmOffsetInterval_bits := 32
    PtmCpuBoostOffset := 0
    AmModuleId := []
    AmCopyrightOffset := []
    AmCopyrightPatch := [] }

/-- A module identity of `0x20` bytes, all equal to `b`. -/
def sampleId (b : Byte) : ModuleId := ⟨List.replicate 0x20 b⟩

/-- A memory holding `0xFF` everywhere, with an empty log. -/
def blankImage : Image := ⟨fun _ => 0xFF, []⟩

/-- The settings cache before the first call. -/
def freshSettings : Settings := ⟨false, false, 0⟩

/-- A platform that always gives the same answers. -/
def constSpl (usb : Bool) (soc : SocType) : Spl := ⟨fun _ => usb, soc⟩

/-- Tables whose only content is one vendor-string identity, patched at offset 4. -/
def vendorTables : Tables :=
  { emptyTables with
    AmModuleId := [sampleId 0xA1]
    AmCopyrightOffset := [4]
    AmCopyrightPatch := [0x41, 0x4D, 0x53, 0x00] }

/-- A patch set of three entries; the second ends one byte past a size of 8. -/
def samplePatch : EmbeddedPatch :=
  { module_id := sampleId 0xB2
    num_entries := 3
    entries := [⟨0, [1, 2], 2⟩, ⟨6, [3, 4, 5], 3⟩, ⟨4, [6, 7], 2⟩] }

/-- A patch set whose two entries write the same byte. -/
def overlapPatch : EmbeddedPatch :=
  { module_id := sampleId 0xB2
    num_entries := 2
    entries := [⟨0, [1], 1⟩, ⟨0, [2], 1⟩] }

/-- A second patch set for the identity of `samplePatch`, writing elsewhere. -/
def secondPatch : EmbeddedPatch :=
  { module_id := sampleId 0xB2
    num_entries := 1
    entries := [⟨12, [8, 9], 2⟩] }

/-- Tables with an entry in each of the four families. The identity
`sampleId 0xB2` is in the force-enable table (twice) and in the vendor-string
table; `sampleId 0xC1` is in the hardware-clock table and in the vendor-string
table. -/
def sampleTables : Tables :=
  { sizeof_ModuleId := 0x20
    Usb30ForceEnablePatches := [samplePatch, ⟨sampleId 0xB3, 1, [⟨0, [0xEE], 1⟩]⟩, secondPatch]
    PcvModuleId := [sampleId 0xC1, sampleId 0xC2]
    CpuTablesFreeSpace := [0x100, 0x180]
    GpuTablesFreeSpace := [0x110, 0x190]
    NewCpuTables := [0x10, 0x11, 0x12, 0x13]
    NewGpuTables := [0x20, 0x21, 0x22, 0x23]
    MaxCpuClockOffset := [0x120, 0x1A0]
    NewMaxCpuClock := u32Bytes 2397000
    Reg1MaxGpuOffset := [0x130, 0x1B0]
    Reg2MaxGpuOffset := [0x140, 0x1C0]
    Reg1NewMaxGpuClock := [[0x31, 0x32], [0x33, 0x34]]
    Reg2NewMaxGpuClock := [[0x41, 0x42], [0x43, 0x44]]
    CpuVoltageLimitOffsets := [[0x150, 0x154], [0x1D0, 0x1D4]]
    NewCpuVoltageLimit := u32Bytes 1220
    CpuVoltageOldTableCoeff := [[0x158], [0x1D8]]
    NewCpuVoltageCoeff := u32Bytes 1120
    EmcFreqOffsets := [[0x160, 0x164], [0x1E0, 0x1E4]]
    PtmModuleId := [sampleId 0xD1]
    PtmEmcOffsetStart := [0x400]
    PtmOffsetInterval := 0x20
    PtmOffsetInterval_bits := 32
    PtmCpuBoostOffset := 0x8
    AmModuleId := [sampleId 0xA1, sampleId 0xB2, sampleId 0xC1]
    AmCopyrightOffset := [4, 0x20, 0x40]
    AmCopyrightPatch := [0x41, 0x4D, 0x53, 0x00] }

/-- The identity `sampleId 0xA1` with its last byte changed. -/
def nearMissId : List Byte := List.replicate 0x1F 0xA1 ++ [0xA0]

/-- Tables that list the same vendor-string identity twice, at offsets 0 and 1. -/
def duplicateVendorTables : Tables :=
  { emptyTables with
    AmModuleId := [sampleId 0xA1, sampleId 0xA1]
    AmCopyrightOffset := [0, 1]
    AmCopyrightPatch := [1, 2] }

/-- A platform whose first answer on the USB setting is `true` and whose later
answers are `false`. -/
def changingSpl : Spl := ⟨fun k => decide (k = 0), SocType.SocType_Mariko⟩

/-- A storage that is not initialised at the first query and is afterwards, and
on which every mount succeeds. -/
def lateStorage : Storage := ⟨fun k => decide (1 ≤ k), fun _ _ => true⟩

/-- The mount cache before the first call. -/
def freshSd : SdState := ⟨false, 0, 0⟩

/-- An external engine that writes one byte right after the protected region. -/
def sampleEngine : IpsCall → Image → Image :=
  fun c img => memcpy img c.protected_offset [0x99] 1

/-- The tables `sampleTables`, except that the two memory-clock offsets of the
second hardware-clock identity are two bytes apart. -/
def overlapEmcTables : Tables :=
  { sampleTables with EmcFreqOffsets := [[0x160, 0x164], [0x1E0, 0x1E2]] }

/-- The tables `sampleTables`, except that the stride of the secondary family is
two bytes. -/
def narrowPtmTables : Tables :=
  { sampleTables with PtmOffsetInterval := 0x2 }

/-- A patch set whose only entry starts at `2^64 - 1` and is two bytes long. -/
def wrapPatch : EmbeddedPatch :=
  { module_id := sampleId 0xB2
    num_entries := 1
    entries := [⟨0xFFFFFFFFFFFFFFFF, [1, 2], 2⟩] }

/-- Tables whose force-enable set has an entry that ends past `2^64`. -/
def wrapTables : Tables :=
  { emptyTables with
    Usb30ForceEnablePatches := [⟨sampleId 0xB2, 1, [⟨0xFFFFFFFFFFFFFFFF, [1, 2], 2⟩]⟩] }

/-- A patch set with one entry, which writes byte 0 of the image. -/
def firstClashPatch : EmbeddedPatch :=
  { module_id := sampleId 0xB2
    num_entries := 1
    entries := [⟨0, [9], 1⟩] }

/-- A second patch set for the same identity: an entry that writes byte 8 of the
image, then an entry that starts at `2^64 - 1` and is two bytes long. -/
def secondClashPatch : EmbeddedPatch :=
  { module_id := sampleId 0xB2
    num_entries := 2
    entries := [⟨8, [7], 1⟩, ⟨0xFFFFFFFFFFFFFFFF, [1, 2], 2⟩] }

/-- Tables whose force-enable table holds the two sets above. -/
def clashTables : Tables :=
  { emptyTables with Usb30ForceEnablePatches := [firstClashPatch, secondClashPatch] }

/-- The tables `sampleTables`, except that the stride of the secondary family is
`2^31 + 1`, so that twice the stride does not fit the 32 bits of the product. -/
def wideStrideTables : Tables :=
  { sampleTables with PtmOffsetInterval := 0x80000001 }

/-! ## Lemmas on the primitives -/

theorem length_readSrc (src : List Byte) (n : Nat) : (readSrc src n).length = n := by
  simp [readSrc]

theorem getD_readSrc (src : List Byte) (n j : Nat) (h : j < n) :
    (readSrc src n).getD j 0 = src.getD j 0 := by
  simp [readSrc, List.getD_eq_getElem?_getD, List.getElem?_map, List.getElem?_range h]

theorem readSrc_length_self (src : List Byte) : readSrc src src.length = src := by
  apply List.ext_getElem
  · simp [readSrc]
  · intro j h1 h2
    simp [readSrc, List.getD_eq_getElem?_getD, List.getElem?_eq_getElem h2]

theorem length_readBytes (mem : Nat → Byte) (off n : Nat) : (readBytes mem off n).length = n := by
  simp [readBytes]

theorem readBytes_congr (m1 m2 : Nat → Byte) (off n : Nat)
    (h : ∀ k, off ≤ k → k < off + n → m1 k = m2 k) : readBytes m1 off n = readBytes m2 off n := by
  unfold readBytes
  apply List.map_congr_left
  intro j hj
  have hj2 : j < n := List.mem_range.mp hj
  exact h (off + j) (by omega) (by omega)

theorem memcpy_mem (img : Image) (dst : Nat) (src : List Byte) (n : Nat) :
    (memcpy img dst src n).mem = (Write.mk dst (readSrc src n)).apply img.mem := rfl

theorem memcpy_log (img : Image) (dst : Nat) (src : List Byte) (n : Nat) :
    (memcpy img dst src n).log = img.log ++ [⟨dst, readSrc src n⟩] := rfl

theorem Write.apply_of_not_covers (w : Write) (mem : Nat → Byte) (k : Nat) (h : ¬ w.covers k) :
    w.apply mem k = mem k := by
  simp [Write.apply, h]

theorem Write.apply_of_covers (w : Write) (mem : Nat → Byte) (k : Nat) (h : w.covers k) :
    w.apply mem k = w.bytes.getD (w.pos k) 0 := by
  simp [Write.apply, h]

/-- A copy that ends inside the 64-bit address space does not wrap: it covers
the indices from `dst` to `dst + length - 1`. -/
theorem Write.covers_iff_of_fit (w : Write) (k : Nat) (h : w.dst + w.bytes.length ≤ 2 ^ 64) :
    w.covers k ↔ w.dst ≤ k ∧ k < w.dst + w.bytes.length := by
  unfold Write.covers Write.pos
  omega

theorem Write.pos_of_fit (w : Write) (k : Nat) (h : k < 2 ^ 64) (h2 : w.dst ≤ k) :
    w.pos k = k - w.dst := by
  unfold Write.pos
  omega

theorem Write.readBytes_apply_self (w : Write) (mem : Nat → Byte)
    (hfit : w.dst + w.bytes.length ≤ 2 ^ 64) :
    readBytes (w.apply mem) w.dst w.bytes.length = w.bytes := by
  apply List.ext_getElem
  · simp [readBytes]
  · intro j h1 h2
    have hc : w.covers (w.dst + j) := (w.covers_iff_of_fit _ hfit).mpr ⟨by omega, by omega⟩
    have hp : w.pos (w.dst + j) = j := by
      rw [w.pos_of_fit _ (by omega) (by omega)]
      omega
    simp [readBytes, Write.apply, hc, hp, List.getD_eq_getElem?_getD,
      List.getElem?_eq_getElem h2]

theorem Write.disjoint_not_covers (a b : Write) (h : a.disjoint b) (k : Nat)
    (hk : a.covers k) : ¬ b.covers k :=
  fun hb => h k ⟨hk, hb⟩

/-- Two copies that end inside the 64-bit address space and whose ranges do not
meet are disjoint. -/
theorem Write.disjoint_of_fit (a b : Write) (ha : a.dst + a.bytes.length ≤ 2 ^ 64)
    (hb : b.dst + b.bytes.length ≤ 2 ^ 64)
    (h : a.dst + a.bytes.length ≤ b.dst ∨ b.dst + b.bytes.length ≤ a.dst) : a.disjoint b := by
  intro k hk
  rw [a.covers_iff_of_fit k ha, b.covers_iff_of_fit k hb] at hk
  omega

/-! ## Lists of copies -/

theorem replay_nil (mem : Nat → Byte) : replay [] mem = mem := rfl

theorem replay_cons (w : Write) (ops : List Write) (mem : Nat → Byte) :
    replay (w :: ops) mem = replay ops (w.apply mem) := rfl

theorem replay_append (xs ys : List Write) (mem : Nat → Byte) :
    replay (xs ++ ys) mem = replay ys (replay xs mem) := by
  simp [replay, List.foldl_append]

/-- An index that no copy of the list covers keeps its byte. -/
theorem replay_frame (ops : List Write) (mem : Nat → Byte) (k : Nat)
    (h : ∀ w ∈ ops, ¬ w.covers k) : replay ops mem k = mem k := by
  induction ops generalizing mem with
  | nil => rfl
  | cons w ops ih =>
    rw [replay_cons, ih _ (fun w' hw' => h w' (List.mem_cons_of_mem _ hw'))]
    exact Write.apply_of_not_covers w mem k (h w (List.mem_cons_self _ _))

/-- A range that the copies of the list leave alone keeps its bytes. -/
theorem readBytes_replay_frame (ops : List Write) (mem : Nat → Byte) (off n : Nat)
    (h : ∀ w ∈ ops, ∀ k, off ≤ k → k < off + n → ¬ w.covers k) :
    readBytes (replay ops mem) off n = readBytes mem off n :=
  readBytes_congr _ _ off n (fun k h1 h2 => replay_frame ops mem k (fun w hw => h w hw k h1 h2))

/-- A copy that no later copy of the list overlaps is still in the memory at the end. -/
theorem readBytes_replay_of_later_disjoint (pre post : List Write) (w : Write)
    (mem : Nat → Byte) (hfit : w.dst + w.bytes.length ≤ 2 ^ 64)
    (h : ∀ v ∈ post, w.disjoint v) :
    readBytes (replay (pre ++ w :: post) mem) w.dst w.bytes.length = w.bytes := by
  rw [replay_append, replay_cons, readBytes_replay_frame, Write.readBytes_apply_self _ _ hfit]
  intro v hv k h1 h2
  exact Write.disjoint_not_covers w v (h v hv) k ((w.covers_iff_of_fit k hfit).mpr ⟨h1, h2⟩)

/-- When every copy of a list that ends at or below `bound` is disjoint from
every other copy of the list, each such copy is in the memory at the end. -/
theorem readBytes_replay_of_pairwise (ops : List Write) (mem : Nat → Byte) (bound : Nat)
    (hbound : bound < 2 ^ 64)
    (h : ops.Pairwise (fun a b =>
      a.dst + a.bytes.length ≤ bound ∨ b.dst + b.bytes.length ≤ bound → a.disjoint b))
    (w : Write) (hw : w ∈ ops) (hin : w.dst + w.bytes.length ≤ bound) :
    readBytes (replay ops mem) w.dst w.bytes.length = w.bytes := by
  obtain ⟨pre, post, rfl⟩ := List.append_of_mem hw
  apply readBytes_replay_of_later_disjoint _ _ _ _ (by omega)
  intro v hv
  have h2 := (List.pairwise_append.mp h).2.1
  exact (List.pairwise_cons.mp h2).1 v hv (Or.inl hin)

/-- What a list of copies does to an index does not depend on the memory it starts from. -/
theorem replay_overlay (ops : List Write) :
    ∃ W : Nat → Option Byte, ∀ (mem : Nat → Byte) (k : Nat),
      replay ops mem k = (W k).getD (mem k) := by
  induction ops with
  | nil => exact ⟨fun _ => none, fun mem k => rfl⟩
  | cons w ops ih =>
    obtain ⟨W, hW⟩ := ih
    refine ⟨fun k => match W k with
      | some b => some b
      | none => if w.covers k then some (w.bytes.getD (w.pos k) 0) else none, ?_⟩
    intro mem k
    rw [replay_cons, hW]
    cases hk : W k with
    | some b => simp [hk]
    | none =>
      by_cases hc : w.covers k <;> simp [Write.apply, hc, hk]

/-- Playing a list of copies twice gives the memory that playing it once gives. -/
theorem replay_idem (ops : List Write) (mem : Nat → Byte) :
    replay ops (replay ops mem) = replay ops mem := by
  obtain ⟨W, hW⟩ := replay_overlay ops
  funext k
  rw [hW (replay ops mem) k, hW mem k]
  cases W k <;> simp

/-! ## Every piece of the program is a writer -/

theorem Writer.skip : Writer (fun img => img) :=
  ⟨[], fun img => by cases img; simp [replay_nil]⟩

theorem Writer.copy (dst : Nat) (src : List Byte) (n : Nat) :
    Writer (fun img => memcpy img dst src n) :=
  ⟨[⟨dst, readSrc src n⟩], fun _ => rfl⟩

theorem Writer.comp {F G : Image → Image} (hF : Writer F) (hG : Writer G) :
    Writer (fun img => G (F img)) := by
  obtain ⟨a, ha⟩ := hF
  obtain ⟨b, hb⟩ := hG
  refine ⟨a ++ b, fun img => ?_⟩
  show G (F img) = _
  rw [ha, hb, replay_append, List.append_assoc]

theorem Writer.cond {F : Image → Image} (c : Prop) [Decidable c] (hF : Writer F) :
    Writer (fun img => if c then F img else img) := by
  by_cases h : c
  · simpa [h] using hF
  · simpa [h] using Writer.skip

theorem Writer.foldl {α : Type} (f : Image → α → Image) (xs : List α)
    (h : ∀ x, Writer (fun img => f img x)) : Writer (fun img => xs.foldl f img) := by
  induction xs with
  | nil => exact Writer.skip
  | cons x xs ih => exact Writer.comp (h x) ih

theorem Writer.mem_eq {F : Image → Image} (h : Writer F) (img : Image) (m0 : Nat → Byte) :
    (F img).mem = replay (F ⟨m0, []⟩).log img.mem := by
  obtain ⟨ops, hops⟩ := h
  rw [hops img, hops ⟨m0, []⟩]
  simp

theorem Writer.log_eq {F : Image → Image} (h : Writer F) (img : Image) (m0 : Nat → Byte) :
    (F img).log = img.log ++ (F ⟨m0, []⟩).log := by
  obtain ⟨ops, hops⟩ := h
  rw [hops img, hops ⟨m0, []⟩]
  simp

theorem applyEntry_writer (mapped_size : Nat) (e : EmbeddedPatchEntry) :
    Writer (fun img => applyEntry mapped_size img e) :=
  Writer.cond _ (Writer.copy e.offset e.data e.size)

theorem applyEntries_writer (mapped_size : Nat) (patch : EmbeddedPatch) :
    Writer (applyEntries mapped_size patch) :=
  Writer.foldl _ _ (applyEntry_writer mapped_size)

theorem applyPatch_writer (module_id : ModuleId) (mapped_size : Nat) (patch : EmbeddedPatch) :
    Writer (fun img => applyPatch module_id mapped_size img patch) :=
  Writer.cond _ (applyEntries_writer mapped_size patch)

theorem applyUsb30ForceEnablePatches_writer (T : Tables) (module_id : ModuleId)
    (mapped_size : Nat) : Writer (applyUsb30ForceEnablePatches T module_id mapped_size) :=
  Writer.foldl _ _ (applyPatch_writer module_id mapped_size)

theorem copyAtEach_writer (row : List Nat) (src : List Byte) : Writer (copyAtEach row src) :=
  Writer.foldl _ _ (fun off => Writer.copy off src src.length)

theorem Writer.then_copy {F : Image → Image} (hF : Writer F) (dst : Nat) (src : List Byte)
    (n : Nat) : Writer (fun img => memcpy (F img) dst src n) :=
  Writer.comp hF (Writer.copy dst src n)

theorem Writer.then_copyAtEach {F : Image → Image} (hF : Writer F) (row : List Nat)
    (src : List Byte) : Writer (fun img => copyAtEach row src (F img)) :=
  Writer.comp hF (copyAtEach_writer row src)

theorem applyPcv_writer (T : Tables) (EmcClock i : Nat) : Writer (applyPcv T EmcClock i) := by
  show Writer (fun img => applyPcv T EmcClock i img)
  unfold applyPcv
  exact (((((((Writer.skip.then_copy _ _ _).then_copy _ _ _).then_copy _ _ _).then_copy
    _ _ _).then_copy _ _ _).then_copyAtEach _ _).then_copyAtEach _ _).then_copyAtEach _ _

theorem applyPcvPatches_writer (T : Tables) (module_id : ModuleId) (EmcClock : Nat) :
    Writer (applyPcvPatches T module_id EmcClock) :=
  Writer.foldl _ _ (fun i => Writer.cond _ (applyPcv_writer T EmcClock i))

theorem applyPtmEmc_writer (T : Tables) (EmcClock i j : Nat) :
    Writer (fun img => applyPtmEmc T EmcClock i img j) := by
  unfold applyPtmEmc
  exact (Writer.skip.then_copy _ _ _).then_copy _ _ _

theorem applyPtmBoost_writer (T : Tables) (CpuBoostClock i j : Nat) :
    Writer (fun img => applyPtmBoost T CpuBoostClock i img j) := by
  unfold applyPtmBoost
  exact (Writer.skip.then_copy _ _ _).then_copy _ _ _

theorem applyPtm_writer (T : Tables) (EmcClock CpuBoostClock i : Nat) :
    Writer (applyPtm T EmcClock CpuBoostClock i) :=
  @Writer.comp (fun img => (List.range 16).foldl (applyPtmEmc T EmcClock i) img)
    (fun img => (List.range 2).foldl (applyPtmBoost T CpuBoostClock i) img)
    (Writer.foldl _ _ (applyPtmEmc_writer T EmcClock i))
    (Writer.foldl _ _ (applyPtmBoost_writer T CpuBoostClock i))

theorem applyPtmPatches_writer (T : Tables) (module_id : ModuleId)
    (EmcClock CpuBoostClock : Nat) : Writer (applyPtmPatches T module_id EmcClock CpuBoostClock) :=
  Writer.foldl _ _ (fun i => Writer.cond _ (applyPtm_writer T EmcClock CpuBoostClock i))

theorem applyMarikoPatches_writer (T : Tables) (P : Spl) (module_id : ModuleId) :
    Writer (applyMarikoPatches T P module_id) :=
  Writer.cond _ (@Writer.comp (applyPcvPatches T module_id GetEmcClock)
    (applyPtmPatches T module_id (GetEmcClock * 1000 % 2 ^ 32) (GetCpuBoostClock * 1000 % 2 ^ 32))
    (applyPcvPatches_writer T module_id _) (applyPtmPatches_writer T module_id _ _))

theorem applyAmPatches_writer (T : Tables) (module_id : ModuleId) :
    Writer (applyAmPatches T module_id) :=
  Writer.foldl _ _ (fun _ => Writer.cond _ (Writer.copy _ _ _))

/-- Lines 144-207 for a given answer `usb` of `IsUsb30ForceEnabled()`. -/
theorem ApplyEmbeddedPatchesToModule_snd (T : Tables) (P : Spl) (module_id_data : List Byte)
    (mapped_size : Nat) (g : Settings) (img : Image) :
    (ApplyEmbeddedPatchesToModule T P module_id_data mapped_size g img).2 =
      applyAmPatches T (MakeModuleId T module_id_data)
        (applyMarikoPatches T P (MakeModuleId T module_id_data)
          (if (IsUsb30ForceEnabled P g).1 = true then
            applyUsb30ForceEnablePatches T (MakeModuleId T module_id_data) mapped_size img
          else img)) := rfl

theorem ApplyEmbeddedPatchesToModule_fst (T : Tables) (P : Spl) (module_id_data : List Byte)
    (mapped_size : Nat) (g : Settings) (img : Image) :
    (ApplyEmbeddedPatchesToModule T P module_id_data mapped_size g img).1 =
      (IsUsb30ForceEnabled P g).2 := rfl

theorem ApplyEmbeddedPatchesToModule_writer (T : Tables) (P : Spl) (module_id_data : List Byte)
    (mapped_size : Nat) (g : Settings) :
    Writer (fun img => (ApplyEmbeddedPatchesToModule T P module_id_data mapped_size g img).2) := by
  simp only [ApplyEmbeddedPatchesToModule_snd]
  exact Writer.comp (Writer.comp
    (Writer.cond _ (applyUsb30ForceEnablePatches_writer T _ mapped_size))
    (applyMarikoPatches_writer T P _)) (applyAmPatches_writer T _)

/-! ## The loop over the entries of a patch set -/

theorem applyEntry_of_fail (mapped_size : Nat) (img : Image) (e : EmbeddedPatchEntry)
    (h : mapped_size < (e.offset + e.size) % 2 ^ 64) : applyEntry mapped_size img e = img := by
  unfold applyEntry
  rw [if_neg (Nat.not_le.mpr h)]

theorem applyEntry_of_pass (mapped_size : Nat) (img : Image) (e : EmbeddedPatchEntry)
    (h : (e.offset + e.size) % 2 ^ 64 ≤ mapped_size) :
    applyEntry mapped_size img e = memcpy img e.offset e.data e.size := by
  unfold applyEntry
  rw [if_pos h]

theorem foldl_applyEntry_of_all_fail (mapped_size : Nat) (es : List EmbeddedPatchEntry)
    (img : Image) (h : ∀ e ∈ es, mapped_size < (e.offset + e.size) % 2 ^ 64) :
    es.foldl (applyEntry mapped_size) img = img := by
  induction es generalizing img with
  | nil => rfl
  | cons e es ih =>
    rw [List.foldl_cons, applyEntry_of_fail mapped_size img e (h e (List.mem_cons_self _ _))]
    exact ih img (fun e' he' => h e' (List.mem_cons_of_mem _ he'))

/-- An index that no entry passing the check writes keeps its byte. -/
theorem foldl_applyEntry_frame (mapped_size : Nat) (es : List EmbeddedPatchEntry) (img : Image)
    (k : Nat)
    (h : ∀ e ∈ es, (e.offset + e.size) % 2 ^ 64 ≤ mapped_size →
      ¬ (Write.mk e.offset (readSrc e.data e.size)).covers k) :
    (es.foldl (applyEntry mapped_size) img).mem k = img.mem k := by
  induction es generalizing img with
  | nil => rfl
  | cons e es ih =>
    rw [List.foldl_cons, ih _ (fun e' he' => h e' (List.mem_cons_of_mem _ he'))]
    by_cases hc : (e.offset + e.size) % 2 ^ 64 ≤ mapped_size
    · rw [applyEntry_of_pass mapped_size img e hc, memcpy_mem]
      exact Write.apply_of_not_covers _ _ _ (h e (List.mem_cons_self _ _) hc)
    · rw [applyEntry_of_fail mapped_size img e (Nat.not_le.mp hc)]

/-- A copy of `n` bytes to `dst` that ends inside the 64-bit address space
writes the indices from `dst` to `dst + n - 1`. -/
theorem memcpy_covers_iff_of_fit (dst n k : Nat) (src : List Byte) (hfit : dst + n ≤ 2 ^ 64) :
    (Write.mk dst (readSrc src n)).covers k ↔ dst ≤ k ∧ k < dst + n := by
  have h := (Write.mk dst (readSrc src n)).covers_iff_of_fit k
    (by simpa [length_readSrc] using hfit)
  simpa [length_readSrc] using h

theorem readBytes_memcpy_self (img : Image) (dst : Nat) (src : List Byte) (n : Nat)
    (hfit : dst + n ≤ 2 ^ 64) :
    readBytes (memcpy img dst src n).mem dst n = readSrc src n := by
  have h := Write.readBytes_apply_self ⟨dst, readSrc src n⟩ img.mem
    (by simpa [length_readSrc] using hfit)
  simpa [length_readSrc] using h

/-- A copy leaves alone the bytes of a range it writes no index of. -/
theorem readBytes_memcpy_of_not_covers (img : Image) (o n a len : Nat) (src : List Byte)
    (h : ∀ k, a ≤ k → k < a + len → ¬ (Write.mk o (readSrc src n)).covers k) :
    readBytes (memcpy img o src n).mem a len = readBytes img.mem a len := by
  apply readBytes_congr
  intro k h1 h2
  rw [memcpy_mem]
  exact Write.apply_of_not_covers _ _ _ (h k h1 h2)

/-- A copy that ends inside the address space and whose range does not meet
`[a, a + len)` leaves these bytes alone. -/
theorem readBytes_memcpy_frame (img : Image) (o n a len : Nat) (src : List Byte)
    (hfit : o + n ≤ 2 ^ 64) (hc : o + n ≤ a ∨ a + len ≤ o) :
    readBytes (memcpy img o src n).mem a len = readBytes img.mem a len := by
  apply readBytes_memcpy_of_not_covers
  intro k h1 h2
  rw [memcpy_covers_iff_of_fit o n k src hfit]
  omega

/-- A copy of `src` that ends inside the address space, to an offset that is
the same as `a` or whose range does not meet that of `a`, keeps the bytes `src`
at `a`. -/
theorem readBytes_memcpy_keep (img : Image) (o a n : Nat) (src : List Byte)
    (hlen : src.length = n) (h : readBytes img.mem a n = src) (hfit : o + n ≤ 2 ^ 64)
    (hc : o = a ∨ o + n ≤ a ∨ a + n ≤ o) :
    readBytes (memcpy img o src n).mem a n = src := by
  rcases hc with rfl | hc | hc
  · rw [readBytes_memcpy_self _ _ _ _ hfit, ← hlen, readSrc_length_self]
  · rw [readBytes_memcpy_frame _ _ _ _ _ _ hfit (Or.inl hc)]
    exact h
  · rw [readBytes_memcpy_frame _ _ _ _ _ _ hfit (Or.inr hc)]
    exact h

/-- What the code does with an entry that fails the check of line 149: it
leaves the image as it is, the entries after it are still applied, and a set
whose entries all fail leaves the image as it is. -/
theorem entries_failing_the_check_are_skipped (mapped_size : Nat) (module_id : ModuleId)
    (patch : EmbeddedPatch) (img : Image) (pre post : List EmbeddedPatchEntry)
    (e : EmbeddedPatchEntry)
    (hmatch : patch.module_id = module_id)
    (hsplit : patch.entries.take patch.num_entries = pre ++ e :: post)
    (hout : mapped_size < (e.offset + e.size) % 2 ^ 64) :
    applyEntry mapped_size img e = img ∧
    applyPatch module_id mapped_size img patch
      = post.foldl (applyEntry mapped_size) (pre.foldl (applyEntry mapped_size) img) ∧
    ((∀ e' ∈ patch.entries.take patch.num_entries,
        mapped_size < (e'.offset + e'.size) % 2 ^ 64) →
      applyPatch module_id mapped_size img patch = img) := by
  refine ⟨applyEntry_of_fail mapped_size img e hout, ?_, ?_⟩
  · unfold applyPatch applyEntries
    rw [if_pos hmatch, hsplit, List.foldl_append, List.foldl_cons,
      applyEntry_of_fail mapped_size _ e hout]
  · intro hall
    unfold applyPatch applyEntries
    rw [if_pos hmatch]
    exact foldl_applyEntry_of_all_fail mapped_size _ img hall

/-- The frame property of a patch set none of whose entries reaches `2^64`: a
byte whose index is in the range `[offset, offset + size)` of no entry keeps its
value. -/
theorem applyEntries_frame_of_fit (mapped_size : Nat) (patch : EmbeddedPatch) (img : Image)
    (k : Nat)
    (hfit : ∀ e ∈ patch.entries.take patch.num_entries, e.offset + e.size ≤ 2 ^ 64)
    (hk : ∀ e ∈ patch.entries.take patch.num_entries,
      ¬ (e.offset ≤ k ∧ k < e.offset + e.size)) :
    (applyEntries mapped_size patch img).mem k = img.mem k := by
  unfold applyEntries
  apply foldl_applyEntry_frame
  intro e he _
  rw [memcpy_covers_iff_of_fit e.offset e.size k e.data (hfit e he)]
  exact hk e he

/-! ## Families that do nothing -/

theorem foldl_range_of_no_match (ids : List ModuleId) (module_id : ModuleId)
    (f : Nat → Image → Image) (img : Image) (h : module_id ∉ ids) :
    (List.range ids.length).foldl
      (fun acc i => if ids.getD i ⟨[]⟩ = module_id then f i acc else acc) img = img := by
  have key : ∀ (l : List Nat) (acc : Image), (∀ i ∈ l, i < ids.length) →
      l.foldl (fun acc i => if ids.getD i ⟨[]⟩ = module_id then f i acc else acc) acc = acc := by
    intro l
    induction l with
    | nil => intro acc _; rfl
    | cons i l ih =>
      intro acc hl
      have hi : i < ids.length := hl i (List.mem_cons_self _ _)
      have hne : ¬ ids.getD i ⟨[]⟩ = module_id := by
        intro heq
        apply h
        rw [← heq, List.getD_eq_getElem _ _ hi]
        exact List.getElem_mem hi
      rw [List.foldl_cons, if_neg hne]
      exact ih acc (fun j hj => hl j (List.mem_cons_of_mem _ hj))
  exact key _ img (fun i hi => List.mem_range.mp hi)

theorem applyUsb30ForceEnablePatches_of_no_match (T : Tables) (module_id : ModuleId)
    (mapped_size : Nat) (img : Image)
    (h : ∀ p ∈ T.Usb30ForceEnablePatches, p.module_id ≠ module_id) :
    applyUsb30ForceEnablePatches T module_id mapped_size img = img := by
  unfold applyUsb30ForceEnablePatches
  generalize T.Usb30ForceEnablePatches = ps at h
  induction ps generalizing img with
  | nil => rfl
  | cons p ps ih =>
    rw [List.foldl_cons]
    have hp : applyPatch module_id mapped_size img p = img := by
      unfold applyPatch
      rw [if_neg (h p (List.mem_cons_self _ _))]
    rw [hp]
    exact ih img (fun q hq => h q (List.mem_cons_of_mem _ hq))

theorem applyPcvPatches_of_no_match (T : Tables) (module_id : ModuleId) (EmcClock : Nat)
    (img : Image) (h : module_id ∉ T.PcvModuleId) :
    applyPcvPatches T module_id EmcClock img = img :=
  foldl_range_of_no_match T.PcvModuleId module_id (fun i acc => applyPcv T EmcClock i acc) img h

theorem applyPtmPatches_of_no_match (T : Tables) (module_id : ModuleId)
    (EmcClock CpuBoostClock : Nat) (img : Image) (h : module_id ∉ T.PtmModuleId) :
    applyPtmPatches T module_id EmcClock CpuBoostClock img = img :=
  foldl_range_of_no_match T.PtmModuleId module_id
    (fun i acc => applyPtm T EmcClock CpuBoostClock i acc) img h

theorem applyMarikoPatches_of_no_match (T : Tables) (P : Spl) (module_id : ModuleId)
    (img : Image) (h2 : module_id ∉ T.PcvModuleId) (h3 : module_id ∉ T.PtmModuleId) :
    applyMarikoPatches T P module_id img = img := by
  unfold applyMarikoPatches
  by_cases hc : P.GetSocType = SocType.SocType_Mariko ∧ GetEmcClock ≠ 0
  · simp only [if_pos hc]
    rw [applyPcvPatches_of_no_match T module_id _ img h2,
      applyPtmPatches_of_no_match T module_id _ _ img h3]
  · simp only [if_neg hc]

theorem applyMarikoPatches_of_other_soc (T : Tables) (P : Spl) (module_id : ModuleId)
    (img : Image) (h : P.GetSocType ≠ SocType.SocType_Mariko) :
    applyMarikoPatches T P module_id img = img := by
  unfold applyMarikoPatches
  have hc : ¬ (P.GetSocType = SocType.SocType_Mariko ∧ GetEmcClock ≠ 0) := fun hh => h hh.1
  simp only [if_neg hc]

theorem applyAmPatches_of_no_match (T : Tables) (module_id : ModuleId) (img : Image)
    (h : module_id ∉ T.AmModuleId) : applyAmPatches T module_id img = img :=
  foldl_range_of_no_match T.AmModuleId module_id
    (fun i acc =>
      memcpy acc (T.AmCopyrightOffset.getD i 0) T.AmCopyrightPatch T.AmCopyrightPatch.length)
    img h

/-! ## The settings cache and the loops over indices -/

theorem IsUsb30ForceEnabled_again (P Q : Spl) (g : Settings) :
    (IsUsb30ForceEnabled Q (IsUsb30ForceEnabled P g).2).1 = (IsUsb30ForceEnabled P g).1 := by
  rcases g with ⟨got, force, queries⟩
  cases got <;> simp [IsUsb30ForceEnabled]

theorem foldl_range_succ {α : Type} (f : α → Nat → α) (a : α) (n : Nat) :
    (List.range (n + 1)).foldl f a = f ((List.range n).foldl f a) n := by
  rw [List.range_succ, List.foldl_append]
  rfl

/-- The vendor-string loop run over the first `n` indices. -/
theorem applyAmPatches_prefix (T : Tables) (module_id : ModuleId) (img : Image) (i n : Nat)
    (hin : i < n) (hn : n ≤ T.AmModuleId.length)
    (hid : T.AmModuleId.getD i ⟨[]⟩ = module_id)
    (hfit : T.AmCopyrightOffset.getD i 0 + T.AmCopyrightPatch.length ≤ 2 ^ 64)
    (hlater : ∀ j, i < j → j < T.AmModuleId.length → T.AmModuleId.getD j ⟨[]⟩ = module_id →
      T.AmCopyrightOffset.getD j 0 = T.AmCopyrightOffset.getD i 0 ∨
      Write.disjoint ⟨T.AmCopyrightOffset.getD i 0, T.AmCopyrightPatch⟩
        ⟨T.AmCopyrightOffset.getD j 0, T.AmCopyrightPatch⟩) :
    readBytes ((List.range n).foldl
      (fun acc j =>
        if T.AmModuleId.getD j ⟨[]⟩ = module_id then
          memcpy acc (T.AmCopyrightOffset.getD j 0) T.AmCopyrightPatch T.AmCopyrightPatch.length
        else acc) img).mem (T.AmCopyrightOffset.getD i 0) T.AmCopyrightPatch.length
      = T.AmCopyrightPatch := by
  induction n with
  | zero => omega
  | succ n ih =>
    rw [foldl_range_succ]
    by_cases hni : n = i
    · subst hni
      rw [if_pos hid, readBytes_memcpy_self _ _ _ _ hfit, readSrc_length_self]
    · have hlt : i < n := by omega
      have ih2 := ih hlt (by omega)
      by_cases hm : T.AmModuleId.getD n ⟨[]⟩ = module_id
      · rw [if_pos hm]
        rcases hlater n hlt (by omega) hm with h | h
        · rw [h, readBytes_memcpy_self _ _ _ _ hfit, readSrc_length_self]
        · rw [readBytes_memcpy_of_not_covers]
          · exact ih2
          · intro k h1 h2
            rw [readSrc_length_self]
            apply Write.disjoint_not_covers _ _ h k
            exact (Write.covers_iff_of_fit ⟨_, _⟩ k hfit).mpr ⟨h1, h2⟩
      · rw [if_neg hm]
        exact ih2

/-! ## What the log contains -/

theorem Writer.log_mono {F : Image → Image} (h : Writer F) (img : Image) (w : Write)
    (hw : w ∈ img.log) : w ∈ (F img).log := by
  obtain ⟨ops, hops⟩ := h
  rw [hops img]
  exact List.mem_append_left _ hw

/-- A copy that one round of a loop always makes is in the log after the loop. -/
theorem foldl_log_mem {α : Type} (f : Image → α → Image) (xs : List α)
    (hf : ∀ x, Writer (fun img => f img x)) (x : α) (hx : x ∈ xs) (w : Write)
    (hw : ∀ img, w ∈ (f img x).log) (img : Image) : w ∈ (xs.foldl f img).log := by
  induction xs generalizing img with
  | nil => cases hx
  | cons y ys ih =>
    rw [List.foldl_cons]
    rcases List.mem_cons.mp hx with h | h
    · subst h
      exact Writer.log_mono (Writer.foldl f ys hf) _ w (hw img)
    · exact ih h _

theorem memcpy_log_mem (img : Image) (dst : Nat) (src : List Byte) (n : Nat) :
    (⟨dst, readSrc src n⟩ : Write) ∈ (memcpy img dst src n).log := by
  rw [memcpy_log]
  exact List.mem_append_right _ (List.mem_singleton_self _)

theorem copyAtEach_log (row : List Nat) (src : List Byte) (img : Image) :
    (copyAtEach row src img).log
      = img.log ++ row.map (fun off => (⟨off, readSrc src src.length⟩ : Write)) := by
  unfold copyAtEach
  induction row generalizing img with
  | nil => simp
  | cons off row ih => rw [List.foldl_cons, ih, memcpy_log]; simp

/-- The copies made at a matching index of the hardware-clock loop, in order. -/
theorem applyPcv_log (T : Tables) (EmcClock i : Nat) (img : Image) :
    (applyPcv T EmcClock i img).log = img.log ++
      ([⟨T.CpuTablesFreeSpace.getD i 0, readSrc T.NewCpuTables T.NewCpuTables.length⟩,
        ⟨T.GpuTablesFreeSpace.getD i 0, readSrc T.NewGpuTables T.NewGpuTables.length⟩,
        ⟨T.MaxCpuClockOffset.getD i 0, readSrc T.NewMaxCpuClock T.NewMaxCpuClock.length⟩,
        ⟨T.Reg1MaxGpuOffset.getD i 0,
          readSrc T.Reg1NewMaxGpuClock.flatten (sizeofElem T.Reg1NewMaxGpuClock)⟩,
        ⟨T.Reg2MaxGpuOffset.getD i 0,
          readSrc T.Reg2NewMaxGpuClock.flatten (sizeofElem T.Reg2NewMaxGpuClock)⟩]
      ++ (T.CpuVoltageLimitOffsets.getD i []).map
          (fun off => (⟨off, readSrc T.NewCpuVoltageLimit T.NewCpuVoltageLimit.length⟩ : Write))
      ++ (T.CpuVoltageOldTableCoeff.getD i []).map
          (fun off => (⟨off, readSrc T.NewCpuVoltageCoeff T.NewCpuVoltageCoeff.length⟩ : Write))
      ++ (T.EmcFreqOffsets.getD i []).map
          (fun off => (⟨off, readSrc (u32Bytes EmcClock) (u32Bytes EmcClock).length⟩ : Write))) := by
  unfold applyPcv
  simp only [copyAtEach_log, memcpy_log, List.append_assoc, List.singleton_append,
    List.cons_append, List.nil_append]

/-- A copy of an entry that passes the check, in a matching set, is in the log
after the force-enable loop. -/
theorem applyUsb30ForceEnablePatches_log_mem (T : Tables) (module_id : ModuleId)
    (mapped_size : Nat) (img : Image) (p : EmbeddedPatch) (e : EmbeddedPatchEntry)
    (hp : p ∈ T.Usb30ForceEnablePatches) (hmatch : p.module_id = module_id)
    (he : e ∈ p.entries.take p.num_entries)
    (hpass : (e.offset + e.size) % 2 ^ 64 ≤ mapped_size) :
    (⟨e.offset, readSrc e.data e.size⟩ : Write)
      ∈ (applyUsb30ForceEnablePatches T module_id mapped_size img).log := by
  unfold applyUsb30ForceEnablePatches
  apply foldl_log_mem _ _ (applyPatch_writer module_id mapped_size) p hp
  intro x
  unfold applyPatch applyEntries
  rw [if_pos hmatch]
  apply foldl_log_mem _ _ (applyEntry_writer mapped_size) e he
  intro y
  rw [applyEntry_of_pass mapped_size y e hpass]
  exact memcpy_log_mem _ _ _ _

/-- The same, in the log after the whole call. -/
theorem usb_entry_logged (T : Tables) (P : Spl) (module_id_data : List Byte) (mapped_size : Nat)
    (g : Settings) (img : Image) (p : EmbeddedPatch) (e : EmbeddedPatchEntry)
    (husb : (IsUsb30ForceEnabled P g).1 = true)
    (hp : p ∈ T.Usb30ForceEnablePatches) (hmatch : p.module_id = MakeModuleId T module_id_data)
    (he : e ∈ p.entries.take p.num_entries)
    (hpass : (e.offset + e.size) % 2 ^ 64 ≤ mapped_size) :
    (⟨e.offset, readSrc e.data e.size⟩ : Write)
      ∈ (ApplyEmbeddedPatchesToModule T P module_id_data mapped_size g img).2.log := by
  rw [ApplyEmbeddedPatchesToModule_snd, if_pos husb]
  apply Writer.log_mono (applyAmPatches_writer T _)
  apply Writer.log_mono (applyMarikoPatches_writer T P _)
  exact applyUsb30ForceEnablePatches_log_mem T _ mapped_size img p e hp hmatch he hpass

/-- The vendor-string copy of a matching index is in the log after the call. -/
theorem vendor_string_logged (T : Tables) (P : Spl) (module_id_data : List Byte)
    (mapped_size : Nat) (g : Settings) (img : Image) (i : Nat) (hi : i < T.AmModuleId.length)
    (hid : T.AmModuleId.getD i ⟨[]⟩ = MakeModuleId T module_id_data) :
    (⟨T.AmCopyrightOffset.getD i 0, T.AmCopyrightPatch⟩ : Write)
      ∈ (ApplyEmbeddedPatchesToModule T P module_id_data mapped_size g img).2.log := by
  rw [ApplyEmbeddedPatchesToModule_snd]
  unfold applyAmPatches
  apply foldl_log_mem _ _ (fun _ => Writer.cond _ (Writer.copy _ _ _)) i (List.mem_range.mpr hi)
  intro x
  rw [if_pos hid]
  have h := memcpy_log_mem x (T.AmCopyrightOffset.getD i 0) T.AmCopyrightPatch
    T.AmCopyrightPatch.length
  rwa [readSrc_length_self] at h

/-- The copies of a matching index of the hardware-clock loop are in the log
after the call, on the SoC type that enables the loop. -/
theorem hardware_clock_logged (T : Tables) (P : Spl) (module_id_data : List Byte)
    (mapped_size : Nat) (g : Settings) (img : Image) (i : Nat) (hi : i < T.PcvModuleId.length)
    (hsoc : P.GetSocType = SocType.SocType_Mariko)
    (hid : T.PcvModuleId.getD i ⟨[]⟩ = MakeModuleId T module_id_data) (w : Write)
    (hw : ∀ x : Image, w ∈ (applyPcv T GetEmcClock i x).log) :
    w ∈ (ApplyEmbeddedPatchesToModule T P module_id_data mapped_size g img).2.log := by
  rw [ApplyEmbeddedPatchesToModule_snd]
  apply Writer.log_mono (applyAmPatches_writer T _)
  unfold applyMarikoPatches
  have hc : P.GetSocType = SocType.SocType_Mariko ∧ GetEmcClock ≠ 0 := ⟨hsoc, by decide⟩
  simp only [if_pos hc]
  apply Writer.log_mono (applyPtmPatches_writer T _ _ _)
  unfold applyPcvPatches
  apply foldl_log_mem _ _ (fun j => Writer.cond _ (applyPcv_writer T GetEmcClock j)) i
    (List.mem_range.mpr hi)
  intro x
  rw [if_pos hid]
  exact hw x

/-! ## The force-enable family stays inside the image -/

/-- A property of the logged copies that every round of a loop keeps is kept by
the loop. -/
theorem foldl_log_forall {α : Type} (f : Image → α → Image) (xs : List α) (Q : Write → Prop)
    (hf : ∀ x ∈ xs, ∀ img : Image, (∀ w ∈ img.log, Q w) → ∀ w ∈ (f img x).log, Q w)
    (img : Image) (h : ∀ w ∈ img.log, Q w) : ∀ w ∈ (xs.foldl f img).log, Q w := by
  induction xs generalizing img with
  | nil => exact h
  | cons x xs ih =>
    rw [List.foldl_cons]
    exact ih (fun y hy => hf y (List.mem_cons_of_mem _ hy)) _
      (hf x (List.mem_cons_self _ _) img h)

/-- The sibling path of the unchecked families: when no sum `offset + size` of
the force-enable table reaches `2^64`, every copy that the force-enable loop
makes lies below `mapped_size`. -/
theorem applyUsb30ForceEnablePatches_in_bounds (T : Tables) (module_id : ModuleId)
    (mapped_size : Nat) (mem : Nat → Byte)
    (hfit : ∀ p ∈ T.Usb30ForceEnablePatches, ∀ e ∈ p.entries.take p.num_entries,
      e.offset + e.size < 2 ^ 64) :
    ∀ w ∈ (applyUsb30ForceEnablePatches T module_id mapped_size ⟨mem, []⟩).log,
      ∀ k, w.covers k → k < mapped_size := by
  unfold applyUsb30ForceEnablePatches
  apply foldl_log_forall
  · intro p hp img himg
    unfold applyPatch
    by_cases hm : p.module_id = module_id
    · rw [if_pos hm]
      unfold applyEntries
      apply foldl_log_forall _ _ _ _ img himg
      intro e he acc hacc
      by_cases hc : (e.offset + e.size) % 2 ^ 64 ≤ mapped_size
      · rw [applyEntry_of_pass mapped_size acc e hc, memcpy_log]
        intro w hw k hk
        rcases List.mem_append.mp hw with h | h
        · exact hacc w h k hk
        · rw [List.mem_singleton.mp h] at hk
          have hlt := hfit p hp e he
          rw [memcpy_covers_iff_of_fit e.offset e.size k e.data (by omega)] at hk
          rw [Nat.mod_eq_of_lt hlt] at hc
          omega
      · rw [applyEntry_of_fail mapped_size acc e (Nat.not_le.mp hc)]
        exact hacc
    · rw [if_neg hm]
      exact himg
  · intro w hw
    cases hw

/-- The vendor-string copy is made whatever `mapped_size` is: for every table
with a non-empty patch, a module whose identity is `AmModuleId[i]` and a
`mapped_size` below the end of the patch, the call writes an index that is not
below `mapped_size`. -/
theorem vendor_string_copy_unchecked (T : Tables) (P : Spl) (module_id_data : List Byte)
    (mapped_size : Nat) (g : Settings) (img : Image) (i : Nat) (hi : i < T.AmModuleId.length)
    (hid : T.AmModuleId.getD i ⟨[]⟩ = MakeModuleId T module_id_data)
    (hlen : 0 < T.AmCopyrightPatch.length)
    (hfit : T.AmCopyrightOffset.getD i 0 + T.AmCopyrightPatch.length ≤ 2 ^ 64)
    (hsmall : mapped_size < T.AmCopyrightOffset.getD i 0 + T.AmCopyrightPatch.length) :
    ∃ w ∈ (ApplyEmbeddedPatchesToModule T P module_id_data mapped_size g img).2.log,
      ∃ k, w.covers k ∧ mapped_size ≤ k := by
  refine ⟨_, vendor_string_logged T P module_id_data mapped_size g img i hi hid,
    T.AmCopyrightOffset.getD i 0 + T.AmCopyrightPatch.length - 1, ?_, ?_⟩
  · rw [Write.covers_iff_of_fit _ _ hfit]
    constructor <;> simp only <;> omega
  · omega

/-! ## Claims on the bounded copy -/

/-- C1, where the code departs from the claim: the vendor-string copy of lines
203-207 is made without comparing its end with `mapped_size`. For a module whose
identity is `AmModuleId[0]`, with `AmCopyrightOffset[0] = 4`, a patch of four
bytes and `mapped_size = 4`, the call makes exactly one copy, to the indices
4 to 7, none of which is below `mapped_size`; index 4 held `0xFF` before. -/
theorem C1_vendor_string_copy_ignores_mapped_size :
    (ApplyEmbeddedPatchesToModule vendorTables (constSpl false SocType.SocType_Erista)
        (sampleId 0xA1).data 4 freshSettings blankImage).2.log
      = [⟨4, [0x41, 0x4D, 0x53, 0x00]⟩] ∧
    (ApplyEmbeddedPatchesToModule vendorTables (constSpl false SocType.SocType_Erista)
        (sampleId 0xA1).data 4 freshSettings blankImage).2.mem 4 = 0x41 ∧
    ¬ (∀ w ∈ (ApplyEmbeddedPatchesToModule vendorTables (constSpl false SocType.SocType_Erista)
        (sampleId 0xA1).data 4 freshSettings blankImage).2.log, ∀ k, w.covers k → k < 4) := by
  refine ⟨by decide, by decide, ?_⟩
  intro h
  have h4 := h ⟨4, [0x41, 0x4D, 0x53, 0x00]⟩ (by decide) 4 (by decide)
  omega

/-- C2, where the code departs from the claim: an entry with
`offset + size > mapped_size` is not always skipped. With the entry
`offset = 2^64 - 1`, `size = 2` in a matching set, the setting on and
`mapped_size = 0x1000`, the sum `offset + size` exceeds `mapped_size`, yet the
64-bit sum of line 149 wraps to 1, the check passes, and the copy changes
byte 0 of the image from `0xFF` to the second byte of the entry. -/
theorem C2_wrapping_entry_is_not_skipped :
    0x1000 < (0xFFFFFFFFFFFFFFFF : Nat) + 2 ∧
    blankImage.mem 0 = 0xFF ∧
    (ApplyEmbeddedPatchesToModule wrapTables (constSpl true SocType.SocType_Erista)
        (sampleId 0xB2).data 0x1000 freshSettings blankImage).2.mem 0 = 2 := by
  refine ⟨by decide, by decide, by decide⟩

/-- C3 as stated fails when two entries of a set overlap: in `overlapPatch` both
entries are in range for `mapped_size = 1`, and after the set is applied the
byte at offset 0 is the data of the second entry, not of the first. -/
theorem C3_overlapped_entry_is_not_kept :
    ∃ e ∈ overlapPatch.entries.take overlapPatch.num_entries,
      e.offset + e.size ≤ 1 ∧
      readBytes (applyEntries 1 overlapPatch blankImage).mem e.offset e.size ≠ e.data :=
  ⟨⟨0, [1], 1⟩, by decide, by decide, by decide⟩

/-- C3, amended: after the entries of a patch set are applied to an image of
`mapped_size` bytes (a `size_t`), an entry with `offset + size ≤ mapped_size`
(equality included) has its bytes in the image, namely the bytes at
`[offset, offset + size)` are the `size` bytes at `data` (`data` itself when
`size` is its length), provided that each entry after it in the set has
`offset + size < 2^64` and, if it passes the check of line 149, a range
`[offset, offset + size)` that does not meet that of the entry. -/
theorem C3_in_range_entry_is_written (mapped_size : Nat) (patch : EmbeddedPatch) (img : Image)
    (pre post : List EmbeddedPatchEntry) (e : EmbeddedPatchEntry)
    (hsz : mapped_size < 2 ^ 64)
    (hsplit : patch.entries.take patch.num_entries = pre ++ e :: post)
    (hin : e.offset + e.size ≤ mapped_size)
    (hfit : ∀ e' ∈ post, e'.offset + e'.size < 2 ^ 64)
    (hlater : ∀ e' ∈ post, (e'.offset + e'.size) % 2 ^ 64 ≤ mapped_size →
      e'.offset + e'.size ≤ e.offset ∨ e.offset + e.size ≤ e'.offset) :
    readBytes (applyEntries mapped_size patch img).mem e.offset e.size = readSrc e.data e.size ∧
    (e.size = e.data.length →
      readBytes (applyEntries mapped_size patch img).mem e.offset e.size = e.data) := by
  have hpass : (e.offset + e.size) % 2 ^ 64 ≤ mapped_size :=
    Nat.le_trans (Nat.mod_le _ _) hin
  have key : readBytes (applyEntries mapped_size patch img).mem e.offset e.size
      = readSrc e.data e.size := by
    unfold applyEntries
    rw [hsplit, List.foldl_append, List.foldl_cons, applyEntry_of_pass mapped_size _ e hpass,
      ← readBytes_memcpy_self (pre.foldl (applyEntry mapped_size) img) e.offset e.data e.size
        (by omega)]
    apply readBytes_congr
    intro k h1 h2
    apply foldl_applyEntry_frame
    intro e' he' hc'
    have hlt := hfit e' he'
    rw [memcpy_covers_iff_of_fit e'.offset e'.size k e'.data (by omega)]
    have := hlater e' he' hc'
    omega
  refine ⟨key, fun hsize => ?_⟩
  rw [key, hsize, readSrc_length_self]

/-- C3, amended, at a concrete input: the entry of `samplePatch` at offset 0,
with `mapped_size = 9`, so that the second entry ends exactly at `mapped_size`. -/
theorem C3_in_range_entry_is_written_witness :
    readBytes (applyEntries 9 samplePatch blankImage).mem 0 2 = readSrc [1, 2] 2 ∧
    ((2 : Nat) = ([1, 2] : List Byte).length →
      readBytes (applyEntries 9 samplePatch blankImage).mem 0 2 = [1, 2]) :=
  C3_in_range_entry_is_written 9 samplePatch blankImage [] [⟨6, [3, 4, 5], 3⟩, ⟨4, [6, 7], 2⟩]
    ⟨0, [1, 2], 2⟩ (by decide) rfl (by decide) (by decide) (by decide)

/-- C4, where the code departs from the claim: the frame property fails for the
patch set `wrapPatch`. Index 0 is in the range `[offset, offset + size)` of no
entry of the set, the only range being `[2^64 - 1, 2^64 + 1)`; yet with
`mapped_size = 0x1000` the entry passes the wrapping check of line 149, its
64-bit destination wraps, and byte 0 of the image changes from `0xFF` to 2. -/
theorem C4_wrapping_entry_breaks_the_frame :
    (∀ e ∈ wrapPatch.entries.take wrapPatch.num_entries,
      ¬ (e.offset ≤ 0 ∧ 0 < e.offset + e.size)) ∧
    blankImage.mem 0 = 0xFF ∧
    (applyEntries 0x1000 wrapPatch blankImage).mem 0 = 2 := by
  refine ⟨by decide, by decide, by decide⟩

/-! ## Claims on the whole call -/

/-- C5: when the identity of the module equals no identity of
`Usb30ForceEnablePatches`, `PcvModuleId`, `PtmModuleId` and `AmModuleId`, the
call leaves the image as it is (same memory, no copy logged), for every SoC
type, every state of the settings cache, every answer of the platform and every
`mapped_size`. -/
theorem C5_no_match_no_change (T : Tables) (P : Spl) (module_id_data : List Byte)
    (mapped_size : Nat) (g : Settings) (img : Image)
    (h1 : ∀ p ∈ T.Usb30ForceEnablePatches, p.module_id ≠ MakeModuleId T module_id_data)
    (h2 : MakeModuleId T module_id_data ∉ T.PcvModuleId)
    (h3 : MakeModuleId T module_id_data ∉ T.PtmModuleId)
    (h4 : MakeModuleId T module_id_data ∉ T.AmModuleId) :
    (ApplyEmbeddedPatchesToModule T P module_id_data mapped_size g img).2 = img := by
  rw [ApplyEmbeddedPatchesToModule_snd,
    applyUsb30ForceEnablePatches_of_no_match T _ mapped_size img h1, ite_self,
    applyMarikoPatches_of_no_match T P _ img h2 h3, applyAmPatches_of_no_match T _ img h4]

/-- C5 at a concrete input: an identity that differs from `AmModuleId[0]` in its
last byte only, on the SoC type and with the setting that enable every family. -/
theorem C5_no_match_no_change_witness :
    (ApplyEmbeddedPatchesToModule sampleTables (constSpl true SocType.SocType_Mariko)
      nearMissId 0x1000 freshSettings blankImage).2 = blankImage :=
  C5_no_match_no_change sampleTables (constSpl true SocType.SocType_Mariko) nearMissId 0x1000
    freshSettings blankImage (by decide) (by decide) (by decide) (by decide)

/-- C6: a second call on the result of a first one, with the same arguments and
the same platform, gives the memory the first call gave. The second call runs on
the image and on the settings cache that the first call left. -/
theorem C6_idempotent (T : Tables) (P : Spl) (module_id_data : List Byte) (mapped_size : Nat)
    (g : Settings) (img : Image) :
    (ApplyEmbeddedPatchesToModule T P module_id_data mapped_size
        (ApplyEmbeddedPatchesToModule T P module_id_data mapped_size g img).1
        (ApplyEmbeddedPatchesToModule T P module_id_data mapped_size g img).2).2.mem
      = (ApplyEmbeddedPatchesToModule T P module_id_data mapped_size g img).2.mem := by
  have hsame : ∀ x : Image,
      (ApplyEmbeddedPatchesToModule T P module_id_data mapped_size
        (ApplyEmbeddedPatchesToModule T P module_id_data mapped_size g img).1 x).2
      = (ApplyEmbeddedPatchesToModule T P module_id_data mapped_size g x).2 := by
    intro x
    rw [ApplyEmbeddedPatchesToModule_snd, ApplyEmbeddedPatchesToModule_snd,
      ApplyEmbeddedPatchesToModule_fst, IsUsb30ForceEnabled_again]
  obtain ⟨ops, hops⟩ := ApplyEmbeddedPatchesToModule_writer T P module_id_data mapped_size g
  rw [hsame]
  have h1 := hops img
  have h2 := hops (ApplyEmbeddedPatchesToModule T P module_id_data mapped_size g img).2
  simp only at h1 h2
  rw [h2, h1]
  exact replay_idem ops img.mem

/-- C7 as stated fails for tables that list the identity of the module twice, at
offsets whose ranges overlap: in `duplicateVendorTables` the identity is
`AmModuleId[0]` and `mapped_size` is large enough, yet after the call the bytes
at `AmCopyrightOffset[0]` are not the patch, since the copy made for index 1
has overwritten the second of them. -/
theorem C7_duplicate_identity_overwrites :
    duplicateVendorTables.AmModuleId.getD 0 ⟨[]⟩
      = MakeModuleId duplicateVendorTables (sampleId 0xA1).data ∧
    duplicateVendorTables.AmCopyrightOffset.getD 0 0
      + duplicateVendorTables.AmCopyrightPatch.length ≤ 16 ∧
    readBytes (ApplyEmbeddedPatchesToModule duplicateVendorTables
        (constSpl false SocType.SocType_Erista) (sampleId 0xA1).data 16 freshSettings
        blankImage).2.mem
      (duplicateVendorTables.AmCopyrightOffset.getD 0 0)
      duplicateVendorTables.AmCopyrightPatch.length
      ≠ duplicateVendorTables.AmCopyrightPatch := by
  refine ⟨by decide, by decide, by decide⟩

/-- C7, amended: when the identity of the module is `AmModuleId[i]`, when
`mapped_size` (a `size_t`) is at least
`AmCopyrightOffset[i] + sizeof(AmCopyrightPatch)`, and when every later index of
`AmModuleId` holding the same identity has either the same offset or a copy
that writes no byte of the copy of index `i` (so in particular when the
identities of `AmModuleId` are distinct), then after the call the bytes at
`[AmCopyrightOffset[i], AmCopyrightOffset[i] + sizeof(AmCopyrightPatch))` are
`AmCopyrightPatch`: for every SoC type and every setting, and whatever the
other families wrote, the vendor-string loop being last. -/
theorem C7_vendor_string_is_written_last (T : Tables) (P : Spl) (module_id_data : List Byte)
    (mapped_size : Nat) (g : Settings) (img : Image) (i : Nat)
    (hsz : mapped_size < 2 ^ 64)
    (hi : i < T.AmModuleId.length)
    (hid : T.AmModuleId.getD i ⟨[]⟩ = MakeModuleId T module_id_data)
    (hsize : T.AmCopyrightOffset.getD i 0 + T.AmCopyrightPatch.length ≤ mapped_size)
    (hlater : ∀ j, i < j → j < T.AmModuleId.length →
      T.AmModuleId.getD j ⟨[]⟩ = MakeModuleId T module_id_data →
      T.AmCopyrightOffset.getD j 0 = T.AmCopyrightOffset.getD i 0 ∨
      Write.disjoint ⟨T.AmCopyrightOffset.getD i 0, T.AmCopyrightPatch⟩
        ⟨T.AmCopyrightOffset.getD j 0, T.AmCopyrightPatch⟩) :
    readBytes (ApplyEmbeddedPatchesToModule T P module_id_data mapped_size g img).2.mem
      (T.AmCopyrightOffset.getD i 0) T.AmCopyrightPatch.length = T.AmCopyrightPatch := by
  rw [ApplyEmbeddedPatchesToModule_snd]
  unfold applyAmPatches
  exact applyAmPatches_prefix T _ _ i T.AmModuleId.length hi (Nat.le_refl _) hid (by omega)
    hlater

/-- C7, amended, at a concrete input: the identity `sampleId 0xC1` is
`AmModuleId[2]` of `sampleTables` and is also in the hardware-clock table, on
the SoC type that enables that family; the patch ends at `0x44`, below
`mapped_size = 0x1000`. -/
theorem C7_vendor_string_is_written_last_witness :
    readBytes (ApplyEmbeddedPatchesToModule sampleTables (constSpl true SocType.SocType_Mariko)
        (sampleId 0xC1).data 0x1000 freshSettings blankImage).2.mem
      (sampleTables.AmCopyrightOffset.getD 2 0) sampleTables.AmCopyrightPatch.length
      = sampleTables.AmCopyrightPatch :=
  C7_vendor_string_is_written_last sampleTables (constSpl true SocType.SocType_Mariko)
    (sampleId 0xC1).data 0x1000 freshSettings blankImage 2 (by decide) (by decide) (by decide)
    (by decide) (by intro j h1 h2; simp [sampleTables] at h2; omega)

/-- C8 as stated fails when the identity is also in the vendor-string table: in
`sampleTables` the identity `sampleId 0xC1` is `PcvModuleId[0]` and
`AmModuleId[2]`; on the other SoC type the call still makes the vendor-string
copy, and the byte at offset `0x40` changes. -/
theorem C8_other_family_still_writes :
    MakeModuleId sampleTables (sampleId 0xC1).data ∈ sampleTables.PcvModuleId ∧
    (constSpl false SocType.SocType_Erista).GetSocType ≠ SocType.SocType_Mariko ∧
    (ApplyEmbeddedPatchesToModule sampleTables (constSpl false SocType.SocType_Erista)
        (sampleId 0xC1).data 0x1000 freshSettings blankImage).2.mem 0x40
      ≠ blankImage.mem 0x40 := by
  refine ⟨by decide, by decide, by decide⟩

/-- C8, amended: when `spl::GetSocType()` is not Mariko, and the identity of the
module is in no entry of `AmModuleId`, and either `IsUsb30ForceEnabled()`
returns false or the identity is in no set of `Usb30ForceEnablePatches`, the
call leaves the image as it is, whether or not the identity is in
`PcvModuleId`. -/
theorem C8_other_soc_no_change (T : Tables) (P : Spl) (module_id_data : List Byte)
    (mapped_size : Nat) (g : Settings) (img : Image)
    (hsoc : P.GetSocType ≠ SocType.SocType_Mariko)
    (ham : MakeModuleId T module_id_data ∉ T.AmModuleId)
    (husb : (IsUsb30ForceEnabled P g).1 = false ∨
      ∀ p ∈ T.Usb30ForceEnablePatches, p.module_id ≠ MakeModuleId T module_id_data) :
    (ApplyEmbeddedPatchesToModule T P module_id_data mapped_size g img).2 = img := by
  have h1 : (if (IsUsb30ForceEnabled P g).1 = true then
      applyUsb30ForceEnablePatches T (MakeModuleId T module_id_data) mapped_size img
      else img) = img := by
    rcases husb with h | h
    · simp [h]
    · rw [applyUsb30ForceEnablePatches_of_no_match T _ mapped_size img h, ite_self]
  rw [ApplyEmbeddedPatchesToModule_snd, h1, applyMarikoPatches_of_other_soc T P _ img hsoc,
    applyAmPatches_of_no_match T _ img ham]

/-- C8, amended, at a concrete input: `sampleId 0xC2` is `PcvModuleId[1]` of
`sampleTables` and is in no other table. -/
theorem C8_other_soc_no_change_witness :
    MakeModuleId sampleTables (sampleId 0xC2).data ∈ sampleTables.PcvModuleId ∧
    (ApplyEmbeddedPatchesToModule sampleTables (constSpl true SocType.SocType_Erista)
      (sampleId 0xC2).data 0x1000 freshSettings blankImage).2 = blankImage :=
  ⟨by decide,
    C8_other_soc_no_change sampleTables (constSpl true SocType.SocType_Erista)
      (sampleId 0xC2).data 0x1000 freshSettings blankImage (by decide) (by decide)
      (Or.inr (by decide))⟩

/-- What the code does for a module that matches several sets or families: take
a call on an image of `mapped_size` bytes (a `size_t`) whose log is empty, so that the log after the call lists the copies the call made: those
of the entries that pass the check in every matching set of the force-enable
table, those of every matching index of the hardware-clock and secondary
tables, those of every matching index of the vendor-string table. If these
copies are pairwise disjoint where in range, that is no copy that lies in the
image has a byte in common with another copy of the call, then after the call
every one of them that lies in the image is in the memory. In particular every
in-range entry of every matching force-enable set (when `IsUsb30ForceEnabled()`
returns true), the two clock tables of every matching hardware-clock index (on
Mariko) and the vendor-string patch of every matching index hold their data,
when they lie in the image. -/
theorem copies_disjoint_in_range_are_all_applied (T : Tables) (P : Spl) (module_id_data : List Byte)
    (mapped_size : Nat) (g : Settings) (mem : Nat → Byte)
    (hsz : mapped_size < 2 ^ 64)
    (hdisj : (ApplyEmbeddedPatchesToModule T P module_id_data mapped_size g
      ⟨mem, []⟩).2.log.Pairwise (fun a b =>
        a.dst + a.bytes.length ≤ mapped_size ∨ b.dst + b.bytes.length ≤ mapped_size →
          a.disjoint b)) :
    (∀ w ∈ (ApplyEmbeddedPatchesToModule T P module_id_data mapped_size g ⟨mem, []⟩).2.log,
      w.dst + w.bytes.length ≤ mapped_size →
      readBytes (ApplyEmbeddedPatchesToModule T P module_id_data mapped_size g ⟨mem, []⟩).2.mem
        w.dst w.bytes.length = w.bytes) ∧
    ((IsUsb30ForceEnabled P g).1 = true →
      ∀ p ∈ T.Usb30ForceEnablePatches, p.module_id = MakeModuleId T module_id_data →
      ∀ e ∈ p.entries.take p.num_entries, e.offset + e.size ≤ mapped_size →
      readBytes (ApplyEmbeddedPatchesToModule T P module_id_data mapped_size g ⟨mem, []⟩).2.mem
        e.offset e.size = readSrc e.data e.size) ∧
    (P.GetSocType = SocType.SocType_Mariko →
      ∀ i, i < T.PcvModuleId.length →
      T.PcvModuleId.getD i ⟨[]⟩ = MakeModuleId T module_id_data →
      (T.CpuTablesFreeSpace.getD i 0 + T.NewCpuTables.length ≤ mapped_size →
        readBytes (ApplyEmbeddedPatchesToModule T P module_id_data mapped_size g
          ⟨mem, []⟩).2.mem
          (T.CpuTablesFreeSpace.getD i 0) T.NewCpuTables.length = T.NewCpuTables) ∧
      (T.GpuTablesFreeSpace.getD i 0 + T.NewGpuTables.length ≤ mapped_size →
        readBytes (ApplyEmbeddedPatchesToModule T P module_id_data mapped_size g
          ⟨mem, []⟩).2.mem
          (T.GpuTablesFreeSpace.getD i 0) T.NewGpuTables.length = T.NewGpuTables)) ∧
    (∀ i, i < T.AmModuleId.length →
      T.AmModuleId.getD i ⟨[]⟩ = MakeModuleId T module_id_data →
      T.AmCopyrightOffset.getD i 0 + T.AmCopyrightPatch.length ≤ mapped_size →
      readBytes (ApplyEmbeddedPatchesToModule T P module_id_data mapped_size g ⟨mem, []⟩).2.mem
        (T.AmCopyrightOffset.getD i 0) T.AmCopyrightPatch.length = T.AmCopyrightPatch) := by
  have hall : ∀ w ∈ (ApplyEmbeddedPatchesToModule T P module_id_data mapped_size g
        ⟨mem, []⟩).2.log,
      w.dst + w.bytes.length ≤ mapped_size →
      readBytes (ApplyEmbeddedPatchesToModule T P module_id_data mapped_size g ⟨mem, []⟩).2.mem
        w.dst w.bytes.length = w.bytes := by
    obtain ⟨ops, hops⟩ := ApplyEmbeddedPatchesToModule_writer T P module_id_data mapped_size g
    have h0 := hops ⟨mem, []⟩
    simp only [List.nil_append] at h0
    rw [h0] at hdisj ⊢
    intro w hw hin
    exact readBytes_replay_of_pairwise ops mem mapped_size hsz hdisj w hw hin
  refine ⟨hall, ?_, ?_, ?_⟩
  · intro husb p hp hmatch e he hin
    have hpass : (e.offset + e.size) % 2 ^ 64 ≤ mapped_size :=
      Nat.le_trans (Nat.mod_le _ _) hin
    have h := hall _ (usb_entry_logged T P module_id_data mapped_size g ⟨mem, []⟩ p e husb hp
      hmatch he hpass) (by simpa [length_readSrc] using hin)
    simpa [length_readSrc] using h
  · intro hsoc i hi hid
    constructor
    · intro hin
      have h := hall ⟨T.CpuTablesFreeSpace.getD i 0, readSrc T.NewCpuTables T.NewCpuTables.length⟩
        (hardware_clock_logged T P module_id_data mapped_size g ⟨mem, []⟩ i hi hsoc hid _
          (fun x => by rw [applyPcv_log]; simp)) (by simpa [length_readSrc] using hin)
      simpa [readSrc_length_self] using h
    · intro hin
      have h := hall ⟨T.GpuTablesFreeSpace.getD i 0, readSrc T.NewGpuTables T.NewGpuTables.length⟩
        (hardware_clock_logged T P module_id_data mapped_size g ⟨mem, []⟩ i hi hsoc hid _
          (fun x => by rw [applyPcv_log]; simp)) (by simpa [length_readSrc] using hin)
      simpa [readSrc_length_self] using h
  · intro i hi hid hin
    exact hall _ (vendor_string_logged T P module_id_data mapped_size g ⟨mem, []⟩ i hi hid) hin

set_option maxRecDepth 4096 in
/-- The same at a concrete input: `sampleId 0xB2` is the identity of two sets of
the force-enable table of `sampleTables` and is `AmModuleId[1]`; the five copies
the call makes are pairwise disjoint and lie in the image. -/
theorem copies_disjoint_in_range_are_all_applied_at_sample :
    (ApplyEmbeddedPatchesToModule sampleTables (constSpl true SocType.SocType_Mariko)
      (sampleId 0xB2).data 0x1000 freshSettings blankImage).2.log.length = 5 ∧
    readBytes (ApplyEmbeddedPatchesToModule sampleTables (constSpl true SocType.SocType_Mariko)
      (sampleId 0xB2).data 0x1000 freshSettings blankImage).2.mem 12 2 = [8, 9] ∧
    readBytes (ApplyEmbeddedPatchesToModule sampleTables (constSpl true SocType.SocType_Mariko)
      (sampleId 0xB2).data 0x1000 freshSettings blankImage).2.mem 0x20 4
        = [0x41, 0x4D, 0x53, 0x00] :=
  have h := copies_disjoint_in_range_are_all_applied sampleTables (constSpl true SocType.SocType_Mariko)
    (sampleId 0xB2).data 0x1000 freshSettings (fun _ => 0xFF) (by decide) (by decide)
  ⟨by decide, h.1 ⟨12, [8, 9]⟩ (by decide) (by decide),
    h.2.2.2 1 (by decide) (by decide) (by decide)⟩

/-- C9, where the code departs from the claim: the identity `sampleId 0xB2`
matches the two sets of the force-enable table of `clashTables`, and the setting
is on. With `mapped_size = 0x1000` the in-range entries are the entry of the
first set, with range `[0, 1)`, and the first entry of the second set, with
range `[8, 9)`; the last entry, at `2^64 - 1`, is not in range, and its range
`[2^64 - 1, 2^64 + 1)` meets neither of the two. The ranges are pairwise
disjoint, yet after the call the range `[0, 1)` does not hold its data `09`: the
last entry passes the wrapping check of line 149, its 64-bit destination wraps,
and its second byte `02` lands on byte 0. The range `[8, 9)` holds its data. -/
theorem C9_wrapping_entry_overwrites_an_applied_patch :
    (∀ p ∈ clashTables.Usb30ForceEnablePatches,
      p.module_id = MakeModuleId clashTables (sampleId 0xB2).data) ∧
    (IsUsb30ForceEnabled (constSpl true SocType.SocType_Erista) freshSettings).1 = true ∧
    ((0 : Nat) + 1 ≤ 0x1000 ∧ (8 : Nat) + 1 ≤ 0x1000 ∧
      ¬ ((0xFFFFFFFFFFFFFFFF : Nat) + 2 ≤ 0x1000)) ∧
    ((0 : Nat) + 1 ≤ 8 ∧ (8 : Nat) + 1 ≤ 0xFFFFFFFFFFFFFFFF) ∧
    readBytes (ApplyEmbeddedPatchesToModule clashTables (constSpl true SocType.SocType_Erista)
        (sampleId 0xB2).data 0x1000 freshSettings blankImage).2.mem 0 1 = [2] ∧
    readBytes (ApplyEmbeddedPatchesToModule clashTables (constSpl true SocType.SocType_Erista)
        (sampleId 0xB2).data 0x1000 freshSettings blankImage).2.mem 0 1 ≠ readSrc [9] 1 ∧
    readBytes (ApplyEmbeddedPatchesToModule clashTables (constSpl true SocType.SocType_Erista)
        (sampleId 0xB2).data 0x1000 freshSettings blankImage).2.mem 8 1 = readSrc [7] 1 := by
  refine ⟨by decide, by decide, by decide, by decide, by decide, by decide, by decide⟩

/-- C10: the force-enable family follows the cached setting. If
`IsUsb30ForceEnabled()` returns false and the identity of the module is in none
of `PcvModuleId`, `PtmModuleId`, `AmModuleId`, the call leaves the image as it
is, whatever `Usb30ForceEnablePatches` holds. If it returns true, the call
makes the copy of every entry with `offset + size ≤ mapped_size` of every set
of `Usb30ForceEnablePatches` whose identity is that of the module: the copy is
in the log after the call. -/
theorem C10_force_enable_gated (T : Tables) (P : Spl) (module_id_data : List Byte)
    (mapped_size : Nat) (g : Settings) (img : Image) :
    ((IsUsb30ForceEnabled P g).1 = false →
      MakeModuleId T module_id_data ∉ T.PcvModuleId →
      MakeModuleId T module_id_data ∉ T.PtmModuleId →
      MakeModuleId T module_id_data ∉ T.AmModuleId →
      (ApplyEmbeddedPatchesToModule T P module_id_data mapped_size g img).2 = img) ∧
    ((IsUsb30ForceEnabled P g).1 = true →
      ∀ p ∈ T.Usb30ForceEnablePatches, p.module_id = MakeModuleId T module_id_data →
      ∀ e ∈ p.entries.take p.num_entries, e.offset + e.size ≤ mapped_size →
      (⟨e.offset, readSrc e.data e.size⟩ : Write)
        ∈ (ApplyEmbeddedPatchesToModule T P module_id_data mapped_size g img).2.log) := by
  constructor
  · intro husb h2 h3 h4
    rw [ApplyEmbeddedPatchesToModule_snd, husb]
    simp only [Bool.false_eq_true, if_false]
    rw [applyMarikoPatches_of_no_match T P _ img h2 h3, applyAmPatches_of_no_match T _ img h4]
  · intro husb p hp hmatch e he hin
    exact usb_entry_logged T P module_id_data mapped_size g img p e husb hp hmatch he
      (Nat.le_trans (Nat.mod_le _ _) hin)

/-- C10 at a concrete input: `sampleId 0xB3` is the identity of one set of the
force-enable table of `sampleTables` and is in no other table. With the setting
off the image is unchanged; with the setting on the entry of the set is copied. -/
theorem C10_force_enable_gated_witness :
    (ApplyEmbeddedPatchesToModule sampleTables (constSpl false SocType.SocType_Mariko)
      (sampleId 0xB3).data 0x1000 freshSettings blankImage).2 = blankImage ∧
    (⟨0, readSrc [0xEE] 1⟩ : Write)
      ∈ (ApplyEmbeddedPatchesToModule sampleTables (constSpl true SocType.SocType_Mariko)
          (sampleId 0xB3).data 0x1000 freshSettings blankImage).2.log :=
  ⟨(C10_force_enable_gated sampleTables (constSpl false SocType.SocType_Mariko)
      (sampleId 0xB3).data 0x1000 freshSettings blankImage).1
      (by decide) (by decide) (by decide) (by decide),
    (C10_force_enable_gated sampleTables (constSpl true SocType.SocType_Mariko)
      (sampleId 0xB3).data 0x1000 freshSettings blankImage).2
      (by decide) ⟨sampleId 0xB3, 1, [⟨0, [0xEE], 1⟩]⟩ (by decide) (by decide)
      ⟨0, [0xEE], 1⟩ (by decide) (by decide)⟩

/-! ## The lazy caches -/

theorem IsUsb30ForceEnabled_of_got (P : Spl) (g : Settings)
    (h : g.g_got_embedded_patch_settings = true) :
    IsUsb30ForceEnabled P g = (g.g_force_enable_usb30, g) := by
  simp [IsUsb30ForceEnabled, h]

theorem repeatCalls_of_fixed {σ : Type} (f : σ → Bool × σ) (s : σ) (b : Bool)
    (h : f s = (b, s)) (n : Nat) : repeatCalls f n s = (List.replicate n b, s) := by
  induction n with
  | zero => rfl
  | succ n ih => simp [repeatCalls, h, ih, List.replicate_succ]

theorem EnsureSdCardMounted_of_mounted (F : Storage) (s : SdState) (h : s.g_mounted_sd = true) :
    EnsureSdCardMounted F s = (true, s) := by
  simp [EnsureSdCardMounted, h]

theorem EnsureSdCardMounted_true (F : Storage) (s : SdState)
    (h : (EnsureSdCardMounted F s).1 = true) :
    (EnsureSdCardMounted F s).2.g_mounted_sd = true := by
  unfold EnsureSdCardMounted at h ⊢
  by_cases h1 : s.g_mounted_sd = true
  · simp [h1]
  · by_cases h2 : F.IsSdCardInitialized s.cfg_queries = true
    · by_cases h3 : F.MountSdCard LoaderSdMountName s.mount_calls = true
      · simp [h1, h2, h3]
      · simp [h1, h2, h3] at h
    · simp [h1, h2] at h

/-- C11: from a state in which the setting has not been fetched yet, `n ≥ 1`
calls to `IsUsb30ForceEnabled` made one after the other all return the answer
that the platform gave to the one query of the first call, whatever the platform
would answer later; the cache then holds that answer, and the number of queries
made to `spl::IsUsb30ForceEnabled` has grown by exactly one, after the first
call as after the `n`-th. -/
theorem C11_settings_cache_computes_once (P : Spl) (g : Settings) (n : Nat)
    (hfresh : g.g_got_embedded_patch_settings = false) (hn : 1 ≤ n) :
    (repeatCalls (IsUsb30ForceEnabled P) n g).1
      = List.replicate n (P.IsUsb30ForceEnabled g.spl_queries) ∧
    (repeatCalls (IsUsb30ForceEnabled P) n g).2
      = ⟨true, P.IsUsb30ForceEnabled g.spl_queries, g.spl_queries + 1⟩ ∧
    (IsUsb30ForceEnabled P g).2.spl_queries = g.spl_queries + 1 := by
  obtain ⟨m, rfl⟩ : ∃ m, n = m + 1 := ⟨n - 1, by omega⟩
  have h1 : IsUsb30ForceEnabled P g
      = (P.IsUsb30ForceEnabled g.spl_queries,
          ⟨true, P.IsUsb30ForceEnabled g.spl_queries, g.spl_queries + 1⟩) := by
    simp [IsUsb30ForceEnabled, hfresh]
  have h2 := repeatCalls_of_fixed (IsUsb30ForceEnabled P)
    ⟨true, P.IsUsb30ForceEnabled g.spl_queries, g.spl_queries + 1⟩
    (P.IsUsb30ForceEnabled g.spl_queries) (IsUsb30ForceEnabled_of_got P _ rfl) m
  refine ⟨?_, ?_, ?_⟩
  · simp [repeatCalls, h1, h2, List.replicate_succ]
  · simp [repeatCalls, h1, h2]
  · rw [h1]

/-- C11 at a concrete input: three calls from the initial state, on a platform
that answers `true` to the first query and would answer `false` afterwards. -/
theorem C11_settings_cache_computes_once_witness :
    (repeatCalls (IsUsb30ForceEnabled changingSpl) 3 freshSettings).1 = [true, true, true] ∧
    (repeatCalls (IsUsb30ForceEnabled changingSpl) 3 freshSettings).2 = ⟨true, true, 1⟩ ∧
    (IsUsb30ForceEnabled changingSpl freshSettings).2.spl_queries = 1 :=
  C11_settings_cache_computes_once changingSpl freshSettings 3 rfl (by decide)

/-- C12: a call to `EnsureSdCardMounted` that returns false leaves
`g_mounted_sd` false. The call after it asks `cfg::IsSdCardInitialized` again,
attempts the mount again if the card is initialised, and returns true and sets
`g_mounted_sd` if the mount succeeds. Once a call has returned true, any number
of later calls return true and leave the state as it is: no further call to
`cfg::IsSdCardInitialized` or to `fs::MountSdCard` is made. -/
theorem C12_mount_cache_retries_and_caches (F : Storage) (s : SdState) :
    ((EnsureSdCardMounted F s).1 = false →
      (EnsureSdCardMounted F s).2.g_mounted_sd = false ∧
      (EnsureSdCardMounted F (EnsureSdCardMounted F s).2).2.cfg_queries
        = (EnsureSdCardMounted F s).2.cfg_queries + 1 ∧
      (F.IsSdCardInitialized (EnsureSdCardMounted F s).2.cfg_queries = true →
        (EnsureSdCardMounted F (EnsureSdCardMounted F s).2).2.mount_calls
          = (EnsureSdCardMounted F s).2.mount_calls + 1 ∧
        (F.MountSdCard LoaderSdMountName (EnsureSdCardMounted F s).2.mount_calls = true →
          (EnsureSdCardMounted F (EnsureSdCardMounted F s).2).1 = true ∧
          (EnsureSdCardMounted F (EnsureSdCardMounted F s).2).2.g_mounted_sd = true))) ∧
    ((EnsureSdCardMounted F s).1 = true →
      ∀ n, repeatCalls (EnsureSdCardMounted F) n (EnsureSdCardMounted F s).2
        = (List.replicate n true, (EnsureSdCardMounted F s).2)) := by
  constructor
  · intro hfail
    have hs : (EnsureSdCardMounted F s).2.g_mounted_sd = false := by
      unfold EnsureSdCardMounted at hfail ⊢
      by_cases h1 : s.g_mounted_sd = true
      · simp [h1] at hfail
      · by_cases h2 : F.IsSdCardInitialized s.cfg_queries = true
        · by_cases h3 : F.MountSdCard LoaderSdMountName s.mount_calls = true
          · simp [h1, h2, h3] at hfail
          · simp [h1, h2, h3]
        · simp [h1, h2]
    generalize (EnsureSdCardMounted F s).2 = t at hs ⊢
    refine ⟨hs, ?_, ?_⟩
    · unfold EnsureSdCardMounted
      by_cases h2 : F.IsSdCardInitialized t.cfg_queries = true
      · by_cases h3 : F.MountSdCard LoaderSdMountName t.mount_calls = true
        · simp [hs, h2, h3]
        · simp [hs, h2, h3]
      · simp [hs, h2]
    · intro h2
      constructor
      · unfold EnsureSdCardMounted
        by_cases h3 : F.MountSdCard LoaderSdMountName t.mount_calls = true
        · simp [hs, h2, h3]
        · simp [hs, h2, h3]
      · intro h3
        simp [EnsureSdCardMounted, hs, h2, h3]
  · intro hok n
    exact repeatCalls_of_fixed _ _ true
      (EnsureSdCardMounted_of_mounted F _ (EnsureSdCardMounted_true F s hok)) n

/-- C12 at a concrete input: on `lateStorage` the first call fails, the second
mounts the card, and three more calls return true with the counts unchanged. -/
theorem C12_mount_cache_retries_and_caches_witness :
    (EnsureSdCardMounted lateStorage freshSd) = (false, ⟨false, 1, 0⟩) ∧
    (EnsureSdCardMounted lateStorage (EnsureSdCardMounted lateStorage freshSd).2).1 = true ∧
    repeatCalls (EnsureSdCardMounted lateStorage) 3 ⟨true, 2, 1⟩
      = ([true, true, true], ⟨true, 2, 1⟩) :=
  ⟨by decide,
    ((((C12_mount_cache_retries_and_caches lateStorage freshSd).1 (by decide)).2.2
      (by decide)).2 (by decide)).1,
    (C12_mount_cache_retries_and_caches lateStorage ⟨false, 1, 0⟩).2 (by decide) 3⟩

/-- C13: `LocateAndApplyIpsPatchesToModule` calls the external engine exactly
when `EnsureSdCardMounted` returns true. When it returns false, the image and the
list of engine calls are as before. When it returns true, exactly one call is
added, with mount name `#amsldr-sdpatch`, directory `exefs_patches`, protected
size and protected offset both `sizeof(NsoHeader)`, a module identity whose
bytes are the first `sizeof(ModuleId)` bytes at `module_id_data`, and the
`mapped_nso` and `mapped_size` of the caller; the image is what the engine
leaves. -/
theorem C13_external_patch_delegation (T : Tables) (sizeof_NsoHeader : Nat) (F : Storage)
    (engine : IpsCall → Image → Image) (module_id_data : List Byte)
    (mapped_nso mapped_size : Nat) (s : SdState) (w : IpsWorld) :
    ((EnsureSdCardMounted F s).1 = false →
      LocateAndApplyIpsPatchesToModule T sizeof_NsoHeader F engine module_id_data mapped_nso
        mapped_size s w = ((EnsureSdCardMounted F s).2, w)) ∧
    ((EnsureSdCardMounted F s).1 = true →
      LocateAndApplyIpsPatchesToModule T sizeof_NsoHeader F engine module_id_data mapped_nso
        mapped_size s w
      = ((EnsureSdCardMounted F s).2,
          { img := engine ⟨"#amsldr-sdpatch", "exefs_patches", sizeof_NsoHeader, sizeof_NsoHeader,
              ⟨module_id_data.take T.sizeof_ModuleId⟩, mapped_nso, mapped_size⟩ w.img
            engine_calls := w.engine_calls ++
              [⟨"#amsldr-sdpatch", "exefs_patches", sizeof_NsoHeader, sizeof_NsoHeader,
                ⟨module_id_data.take T.sizeof_ModuleId⟩, mapped_nso, mapped_size⟩] })) := by
  constructor
  · intro h
    simp [LocateAndApplyIpsPatchesToModule, h]
  · intro h
    simp [LocateAndApplyIpsPatchesToModule, h, LoaderSdMountName, NsoPatchesDirectory,
      NsoPatchesProtectedSize, NsoPatchesProtectedOffset, MakeModuleId]

/-- C13 at a concrete input: with the card not initialised nothing happens; with
the card mounted the engine is called once. -/
theorem C13_external_patch_delegation_witness :
    (LocateAndApplyIpsPatchesToModule sampleTables 0x100 lateStorage sampleEngine
        (sampleId 0xA1).data 0x7100000000 0x1000 freshSd ⟨blankImage, []⟩).2.engine_calls = [] ∧
    (LocateAndApplyIpsPatchesToModule sampleTables 0x100 lateStorage sampleEngine
        (sampleId 0xA1).data 0x7100000000 0x1000 ⟨true, 2, 1⟩ ⟨blankImage, []⟩).2.engine_calls
      = [⟨"#amsldr-sdpatch", "exefs_patches", 0x100, 0x100, sampleId 0xA1, 0x7100000000,
          0x1000⟩] := by
  constructor
  · have h := (C13_external_patch_delegation sampleTables 0x100 lateStorage sampleEngine
      (sampleId 0xA1).data 0x7100000000 0x1000 freshSd ⟨blankImage, []⟩).1 (by decide)
    rw [h]
  · have h := (C13_external_patch_delegation sampleTables 0x100 lateStorage sampleEngine
      (sampleId 0xA1).data 0x7100000000 0x1000 ⟨true, 2, 1⟩ ⟨blankImage, []⟩).2 (by decide)
    rw [h]
    decide

/-! ## Hexadecimal decoding -/

theorem ParseNybble_of_hex (c : Nat)
    (h : (48 ≤ c ∧ c ≤ 57) ∨ (65 ≤ c ∧ c ≤ 70) ∨ (97 ≤ c ∧ c ≤ 102)) :
    ∃ v, ParseNybble c = some v ∧ v < 16 ∧ c ≠ 0 := by
  have hc : c < 103 := by omega
  revert h
  revert c
  decide

theorem nybbles_to_byte : ∀ hi, hi < 16 → ∀ lo, lo < 16 →
    ((hi <<< 4) ||| (lo <<< 0)) % 256 = 16 * hi + lo := by
  decide

/-- The loop of `ParseModuleId` on `2 * n` hexadecimal characters: it ends, it
stores the `n` decoded bytes from index `ofs` on, and keeps the other bytes. -/
theorem ParseModuleIdLoop_spec (size n : Nat) :
    ∀ (str : List Nat) (ofs : Nat) (data : List Byte), str.length = 2 * n →
      (∀ c ∈ str, (48 ≤ c ∧ c ≤ 57) ∨ (65 ≤ c ∧ c ≤ 70) ∨ (97 ≤ c ∧ c ≤ 102)) →
      ofs + n ≤ size → data.length = size →
      ∃ out, ParseModuleIdLoop size str ofs data = some out ∧ out.length = size ∧
        (∀ i, i < n → ∃ hi lo, ParseNybble (str.getD (2 * i) 0) = some hi ∧
          ParseNybble (str.getD (2 * i + 1) 0) = some lo ∧
          out.getD (ofs + i) 0 = 16 * hi + lo) ∧
        (∀ k, k < ofs ∨ ofs + n ≤ k → out.getD k 0 = data.getD k 0) := by
  induction n with
  | zero =>
    intro str ofs data hlen _ _ hdata
    have hnil : str = [] := List.length_eq_zero.mp (by omega)
    subst hnil
    exact ⟨data, rfl, hdata, fun i hi => absurd hi (Nat.not_lt_zero i), fun _ _ => rfl⟩
  | succ n ih =>
    intro str ofs data hlen hhex hofs hdata
    match str, hlen, hhex with
    | [], hlen, _ => simp at hlen
    | [_], hlen, _ => simp at hlen; omega
    | c0 :: c1 :: rest, hlen, hhex =>
      obtain ⟨hi, hhi, hhi16, hc0⟩ := ParseNybble_of_hex c0 (hhex c0 (by simp))
      obtain ⟨lo, hlo, hlo16, hc1⟩ := ParseNybble_of_hex c1 (hhex c1 (by simp))
      have hrest : rest.length = 2 * n := by simp at hlen; omega
      have hbyte := nybbles_to_byte hi hhi16 lo hlo16
      obtain ⟨out, hout, holen, hbytes, hframe⟩ := ih rest (ofs + 1)
        (data.set ofs (16 * hi + lo)) hrest (fun c hc => hhex c (by simp [hc])) (by omega)
        (by simp [hdata])
      refine ⟨out, ?_, holen, ?_, ?_⟩
      · have hlt : ofs < size := by omega
        simp only [ParseModuleIdLoop, hc0, hc1, hhi, hlo, hbyte, if_false, not_lt,
          Nat.not_le.mpr hlt]
        exact hout
      · intro i hi'
        cases i with
        | zero =>
          refine ⟨hi, lo, by simpa using hhi, by simpa using hlo, ?_⟩
          rw [Nat.add_zero, hframe ofs (Or.inl (by omega))]
          simp [List.getD_eq_getElem?_getD, List.getElem?_set, hdata, show ofs < size by omega]
        | succ j =>
          obtain ⟨a, b, ha, hb, hab⟩ := hbytes j (by omega)
          refine ⟨a, b, ?_, ?_, ?_⟩
          · have : 2 * (j + 1) = (2 * j) + 1 + 1 := by omega
            rw [this]
            simpa using ha
          · have : 2 * (j + 1) + 1 = (2 * j + 1) + 1 + 1 := by omega
            rw [this]
            simpa using hb
          · have : ofs + (j + 1) = ofs + 1 + j := by omega
            rw [this]
            exact hab
      · intro k hk
        rw [hframe k (by omega)]
        have hne : ofs ≠ k := by omega
        simp [List.getD_eq_getElem?_getD, List.getElem?_set, hne]

/-- C14: `ParseNybble` maps the digits `'0'..'9'` to 0..9 and the letters
`'A'..'F'` and `'a'..'f'` to 10..15, the two cases agreeing. For a string of
`2 * n` such characters with `n ≤ sizeof(ModuleId)`, `ParseModuleId` returns an
identity of `sizeof(ModuleId)` bytes whose byte `i`, for `i < n`, is
`16 * ParseNybble(s[2i]) + ParseNybble(s[2i+1])`, and whose bytes from `n` on
are zero. -/
theorem C14_hex_decoding :
    (∀ d, d < 10 → ParseNybble (48 + d) = some d) ∧
    (∀ d, d < 6 → ParseNybble (65 + d) = some (10 + d) ∧ ParseNybble (97 + d) = some (10 + d)) ∧
    (∀ (size n : Nat) (str : List Nat), str.length = 2 * n → n ≤ size →
      (∀ c ∈ str, (48 ≤ c ∧ c ≤ 57) ∨ (65 ≤ c ∧ c ≤ 70) ∨ (97 ≤ c ∧ c ≤ 102)) →
      ∃ id, ParseModuleId size str = some id ∧ id.data.length = size ∧
        (∀ i, i < n → ∃ hi lo, ParseNybble (str.getD (2 * i) 0) = some hi ∧
          ParseNybble (str.getD (2 * i + 1) 0) = some lo ∧
          id.data.getD i 0 = 16 * hi + lo) ∧
        (∀ i, n ≤ i → i < size → id.data.getD i 0 = 0)) := by
  refine ⟨by decide, by decide, ?_⟩
  intro size n str hlen hn hhex
  obtain ⟨out, hout, holen, hbytes, hframe⟩ := ParseModuleIdLoop_spec size n str 0
    (List.replicate size 0) hlen hhex (by omega) (by simp)
  refine ⟨⟨out⟩, by simp [ParseModuleId, hout], holen, ?_, ?_⟩
  · intro i hi
    obtain ⟨a, b, ha, hb, hab⟩ := hbytes i hi
    exact ⟨a, b, ha, hb, by simpa using hab⟩
  · intro i h1 h2
    rw [hframe i (Or.inr (by omega))]
    simp [List.getD_eq_getElem?_getD, List.getElem?_replicate, h2]

/-- C14 at a concrete input: the string `"1aF0"` with `sizeof(ModuleId) = 4`
gives the bytes `0x1a`, `0xF0`, `0`, `0`. -/
theorem C14_hex_decoding_witness :
    ParseModuleId 4 [49, 97, 70, 48] = some ⟨[0x1a, 0xF0, 0, 0]⟩ ∧
    ∃ id, ParseModuleId 4 [49, 97, 70, 48] = some id ∧ id.data.length = 4 ∧
      (∀ i, i < 2 → ∃ hi lo, ParseNybble (([49, 97, 70, 48] : List Nat).getD (2 * i) 0) = some hi ∧
        ParseNybble (([49, 97, 70, 48] : List Nat).getD (2 * i + 1) 0) = some lo ∧
        id.data.getD i 0 = 16 * hi + lo) ∧
      (∀ i, 2 ≤ i → i < 4 → id.data.getD i 0 = 0) :=
  ⟨by decide, C14_hex_decoding.2.2 4 2 [49, 97, 70, 48] rfl (by decide) (by decide)⟩

/-! ## Words that stay in the memory -/

/-- A loop over the indices of a table of identities, when `i` is the last index
that holds the identity of the module: the loop ends with the round of `i`. -/
theorem foldl_range_last_match (ids : List ModuleId) (module_id : ModuleId)
    (f : Nat → Image → Image) (img : Image) (i : Nat) (hi : i < ids.length)
    (hid : ids.getD i ⟨[]⟩ = module_id)
    (hlast : ∀ j, i < j → j < ids.length → ids.getD j ⟨[]⟩ ≠ module_id) :
    (List.range ids.length).foldl
        (fun acc j => if ids.getD j ⟨[]⟩ = module_id then f j acc else acc) img
      = f i ((List.range i).foldl
        (fun acc j => if ids.getD j ⟨[]⟩ = module_id then f j acc else acc) img) := by
  have key : ∀ n, i < n → n ≤ ids.length →
      (List.range n).foldl
        (fun acc j => if ids.getD j ⟨[]⟩ = module_id then f j acc else acc) img
      = f i ((List.range i).foldl
        (fun acc j => if ids.getD j ⟨[]⟩ = module_id then f j acc else acc) img) := by
    intro n
    induction n with
    | zero => intro h; omega
    | succ n ih =>
      intro h1 h2
      rw [foldl_range_succ]
      by_cases hn : n = i
      · subst hn
        rw [if_pos hid]
      · rw [if_neg (hlast n (by omega) (by omega))]
        exact ih (by omega) (by omega)
  exact key ids.length hi (Nat.le_refl _)

/-- After `src` has been copied to every offset of a row, it is at `off` if the
copy to `off` and those to the later offsets of the row end inside the address
space and every later offset is `off` itself or has a range that does not meet
that of `off`. -/
theorem copyAtEach_holds (pre post : List Nat) (off : Nat) (src : List Byte) (img : Image)
    (hoff : off + src.length ≤ 2 ^ 64)
    (hpost : ∀ o ∈ post, o + src.length ≤ 2 ^ 64 ∧
      (o = off ∨ o + src.length ≤ off ∨ off + src.length ≤ o)) :
    readBytes (copyAtEach (pre ++ off :: post) src img).mem off src.length = src := by
  unfold copyAtEach
  rw [List.foldl_append, List.foldl_cons]
  have h0 : readBytes (memcpy (pre.foldl (fun acc o => memcpy acc o src src.length) img)
      off src src.length).mem off src.length = src := by
    rw [readBytes_memcpy_self _ _ _ _ hoff, readSrc_length_self]
  generalize memcpy (pre.foldl (fun acc o => memcpy acc o src src.length) img)
      off src src.length = acc at h0
  induction post generalizing acc with
  | nil => exact h0
  | cons o post ih =>
    rw [List.foldl_cons]
    apply ih (fun o' ho' => hpost o' (List.mem_cons_of_mem _ ho'))
    exact readBytes_memcpy_keep acc o off src.length src rfl h0
      (hpost o (List.mem_cons_self _ _)).1 (hpost o (List.mem_cons_self _ _)).2

/-- The call when the hardware-clock loop ends with the round of index `i` and
the two later families find no match. -/
theorem ApplyEmbeddedPatchesToModule_of_last_pcv (T : Tables) (P : Spl)
    (module_id_data : List Byte) (mapped_size : Nat) (g : Settings) (img : Image) (i : Nat)
    (hsoc : P.GetSocType = SocType.SocType_Mariko) (hi : i < T.PcvModuleId.length)
    (hid : T.PcvModuleId.getD i ⟨[]⟩ = MakeModuleId T module_id_data)
    (hlast : ∀ j, i < j → j < T.PcvModuleId.length →
      T.PcvModuleId.getD j ⟨[]⟩ ≠ MakeModuleId T module_id_data)
    (hptm : MakeModuleId T module_id_data ∉ T.PtmModuleId)
    (ham : MakeModuleId T module_id_data ∉ T.AmModuleId) :
    ∃ x : Image, (ApplyEmbeddedPatchesToModule T P module_id_data mapped_size g img).2
      = applyPcv T GetEmcClock i x := by
  rw [ApplyEmbeddedPatchesToModule_snd, applyAmPatches_of_no_match T _ _ ham]
  unfold applyMarikoPatches
  have hc : P.GetSocType = SocType.SocType_Mariko ∧ GetEmcClock ≠ 0 := ⟨hsoc, by decide⟩
  simp only [if_pos hc]
  rw [applyPtmPatches_of_no_match T _ _ _ _ hptm]
  unfold applyPcvPatches
  rw [foldl_range_last_match T.PcvModuleId _ (fun j acc => applyPcv T GetEmcClock j acc) _ i hi
    hid hlast]
  exact ⟨_, rfl⟩

/-! ## Two words per round, at a fixed stride -/

/-- A loop that copies the word `src` to `base + I * j` and to `base + I * j + 4`
for `j < n`, the product being computed modulo `M`: when no product wraps, every
word ends inside the address space, and the stride `I` is a multiple of 4 or at
least 8, both words of every round are in the memory after the loop. -/
theorem twoWordLoop_holds (base I M : Nat) (src : List Byte) (hsrc : src.length = 4)
    (hI : I % 4 = 0 ∨ 8 ≤ I) (j0 : Nat) (img : Image) :
    ∀ n, j0 < n → (∀ j, j < n → I * j < M) → (∀ j, j < n → base + I * j + 8 ≤ 2 ^ 64) →
      readBytes ((List.range n).foldl
        (fun acc j => memcpy (memcpy acc (base + I * j % M) src 4) (base + I * j % M + 4) src 4)
        img).mem (base + I * j0) 4 = src ∧
      readBytes ((List.range n).foldl
        (fun acc j => memcpy (memcpy acc (base + I * j % M) src 4) (base + I * j % M + 4) src 4)
        img).mem (base + I * j0 + 4) 4 = src := by
  intro n
  induction n with
  | zero => intro h; omega
  | succ n ih =>
    intro hn hM hfit
    rw [foldl_range_succ, Nat.mod_eq_of_lt (hM n (by omega))]
    have hfn := hfit n (by omega)
    by_cases hj : n = j0
    · subst hj
      constructor
      · apply readBytes_memcpy_keep _ _ _ _ _ hsrc _ (by omega) (by omega)
        rw [readBytes_memcpy_self _ _ _ _ (by omega), ← hsrc, readSrc_length_self]
      · rw [readBytes_memcpy_self _ _ _ _ (by omega), ← hsrc, readSrc_length_self]
    · obtain ⟨ih1, ih2⟩ := ih (by omega) (fun j hj' => hM j (by omega))
        (fun j hj' => hfit j (by omega))
      obtain ⟨t, ht, rfl⟩ : ∃ t, 1 ≤ t ∧ n = j0 + t := ⟨n - j0, by omega, by omega⟩
      have hd : (I * t) % 4 = 0 ∨ 8 ≤ I * t := by
        rcases hI with h | h
        · left
          rw [Nat.mul_mod, h]
          simp
        · right
          exact Nat.le_trans h (Nat.le_mul_of_pos_right I ht)
      have hmul : I * (j0 + t) = I * j0 + I * t := Nat.mul_add I j0 t
      rw [hmul] at hfn ⊢
      constructor
      · apply readBytes_memcpy_keep _ _ _ _ _ hsrc _ (by omega) (by omega)
        exact readBytes_memcpy_keep _ _ _ _ _ hsrc ih1 (by omega) (by omega)
      · apply readBytes_memcpy_keep _ _ _ _ _ hsrc _ (by omega) (by omega)
        exact readBytes_memcpy_keep _ _ _ _ _ hsrc ih2 (by omega) (by omega)

/-- The same loop leaves alone four bytes that none of its words meets. -/
theorem twoWordLoop_frame (base I M a : Nat) (src : List Byte) (img : Image) :
    ∀ n, (∀ j, j < n → I * j < M) → (∀ j, j < n → base + I * j + 8 ≤ 2 ^ 64) →
      (∀ k, k < n → ∀ b, b = base + I * k ∨ b = base + I * k + 4 → b + 4 ≤ a ∨ a + 4 ≤ b) →
      readBytes ((List.range n).foldl
        (fun acc j => memcpy (memcpy acc (base + I * j % M) src 4) (base + I * j % M + 4) src 4)
        img).mem a 4 = readBytes img.mem a 4 := by
  intro n
  induction n with
  | zero => intro _ _ _; rfl
  | succ n ih =>
    intro hM hfit h
    have hfn := hfit n (by omega)
    rw [foldl_range_succ, Nat.mod_eq_of_lt (hM n (by omega)),
      readBytes_memcpy_frame _ _ _ _ _ _ (by omega) (h n (by omega) _ (Or.inr rfl)),
      readBytes_memcpy_frame _ _ _ _ _ _ (by omega) (h n (by omega) _ (Or.inl rfl))]
    exact ih (fun j hj => hM j (by omega)) (fun j hj => hfit j (by omega))
      (fun k hk b hb => h k (by omega) b hb)

/-- The call when the secondary loop ends with the round of index `i` and the
vendor-string family finds no match. -/
theorem ApplyEmbeddedPatchesToModule_of_last_ptm (T : Tables) (P : Spl)
    (module_id_data : List Byte) (mapped_size : Nat) (g : Settings) (img : Image) (i : Nat)
    (hsoc : P.GetSocType = SocType.SocType_Mariko) (hi : i < T.PtmModuleId.length)
    (hid : T.PtmModuleId.getD i ⟨[]⟩ = MakeModuleId T module_id_data)
    (hlast : ∀ j, i < j → j < T.PtmModuleId.length →
      T.PtmModuleId.getD j ⟨[]⟩ ≠ MakeModuleId T module_id_data)
    (ham : MakeModuleId T module_id_data ∉ T.AmModuleId) :
    ∃ x : Image, (ApplyEmbeddedPatchesToModule T P module_id_data mapped_size g img).2
      = applyPtm T 1862400000 1963500000 i x := by
  rw [ApplyEmbeddedPatchesToModule_snd, applyAmPatches_of_no_match T _ _ ham]
  unfold applyMarikoPatches
  have hc : P.GetSocType = SocType.SocType_Mariko ∧ GetEmcClock ≠ 0 := ⟨hsoc, by decide⟩
  simp only [if_pos hc]
  unfold applyPtmPatches
  rw [foldl_range_last_match T.PtmModuleId _
    (fun j acc => applyPtm T (GetEmcClock * 1000 % 2 ^ 32) (GetCpuBoostClock * 1000 % 2 ^ 32) j acc)
    _ i hi hid hlast]
  exact ⟨_, rfl⟩

/-! ## The check of line 149 and the size of an element -/

/-- When the sum does not reach `2^64`, the check of line 149 is the comparison
of the true end of the entry with `mapped_size`. -/
theorem check_iff_of_no_wrap (e : EmbeddedPatchEntry) (mapped_size : Nat)
    (h : e.offset + e.size < 2 ^ 64) :
    (e.offset + e.size) % 2 ^ 64 ≤ mapped_size ↔ e.offset + e.size ≤ mapped_size := by
  rw [Nat.mod_eq_of_lt h]

theorem readSrc_append_left (x y : List Byte) : readSrc (x ++ y) x.length = x := by
  apply List.ext_getElem
  · simp [readSrc]
  · intro j h1 h2
    simp [readSrc, List.getD_eq_getElem?_getD, List.getElem?_append_left h2,
      List.getElem?_eq_getElem h2]

/-- The first `sizeof(arr[i])` bytes of an array are its element 0. -/
theorem readSrc_flatten_sizeofElem (arr : List (List Byte)) :
    readSrc arr.flatten (sizeofElem arr) = arr.getD 0 [] := by
  cases arr with
  | nil => rfl
  | cons x xs =>
    simp only [sizeofElem, List.headD_cons, List.flatten_cons, List.getD_cons_zero]
    exact readSrc_append_left x xs.flatten

theorem take_flatten_sizeofElem (arr : List (List Byte)) :
    arr.flatten.take (sizeofElem arr) = arr.getD 0 [] := by
  cases arr with
  | nil => rfl
  | cons x xs => simp [sizeofElem]

/-! ## Claims on the clock families -/

/-- C16 as stated fails when two offsets of the row `EmcFreqOffsets[i]` are less
than four bytes apart: in `overlapEmcTables` the row of index 1 is
`0x1E0, 0x1E2`, the identity is `PcvModuleId[1]` and is in no other table, the
SoC type is Mariko and the image is large enough, and after the call the four
bytes at `0x1E0` are `00 6B 00 6B`, not the encoding `00 6B 1C 00` of 1862400. -/
theorem C16_overlapping_offsets_break_the_word :
    overlapEmcTables.PcvModuleId.getD 1 ⟨[]⟩
      = MakeModuleId overlapEmcTables (sampleId 0xC2).data ∧
    MakeModuleId overlapEmcTables (sampleId 0xC2).data ∉ overlapEmcTables.PtmModuleId ∧
    MakeModuleId overlapEmcTables (sampleId 0xC2).data ∉ overlapEmcTables.AmModuleId ∧
    0x1E0 ∈ overlapEmcTables.EmcFreqOffsets.getD 1 [] ∧
    readBytes (ApplyEmbeddedPatchesToModule overlapEmcTables
        (constSpl false SocType.SocType_Mariko) (sampleId 0xC2).data 0x1000 freshSettings
        blankImage).2.mem 0x1E0 4 = [0x00, 0x6B, 0x00, 0x6B] ∧
    u32Bytes 1862400 = [0x00, 0x6B, 0x1C, 0x00] := by
  refine ⟨by decide, by decide, by decide, by decide, by decide, by decide⟩

/-- C16, amended: on Mariko, when the identity of the module is `PcvModuleId[i]`,
is at no later index of `PcvModuleId`, and is in neither `PtmModuleId` nor
`AmModuleId`, and when the image is large enough for the row `EmcFreqOffsets[i]`
(every offset of the row, plus 4, is at most `mapped_size`, a `size_t`), then
after the call the four bytes at an offset of the row are the little-endian
encoding of 1862400, the value of `GetEmcClock()`, provided every offset listed
after it in the row is the same offset or at least four bytes away from it. -/
theorem C16_memory_clock_is_written (T : Tables) (P : Spl) (module_id_data : List Byte)
    (mapped_size : Nat) (g : Settings) (img : Image) (i : Nat) (pre post : List Nat) (off : Nat)
    (hsz : mapped_size < 2 ^ 64)
    (hsoc : P.GetSocType = SocType.SocType_Mariko) (hi : i < T.PcvModuleId.length)
    (hid : T.PcvModuleId.getD i ⟨[]⟩ = MakeModuleId T module_id_data)
    (hlast : ∀ j, i < j → j < T.PcvModuleId.length →
      T.PcvModuleId.getD j ⟨[]⟩ ≠ MakeModuleId T module_id_data)
    (hptm : MakeModuleId T module_id_data ∉ T.PtmModuleId)
    (ham : MakeModuleId T module_id_data ∉ T.AmModuleId)
    (hrow : T.EmcFreqOffsets.getD i [] = pre ++ off :: post)
    (hlarge : ∀ o ∈ T.EmcFreqOffsets.getD i [], o + 4 ≤ mapped_size)
    (hpost : ∀ o ∈ post, o = off ∨ o + 4 ≤ off ∨ off + 4 ≤ o) :
    readBytes (ApplyEmbeddedPatchesToModule T P module_id_data mapped_size g img).2.mem off 4
      = u32Bytes 1862400 ∧
    GetEmcClock = 1862400 := by
  obtain ⟨x, hx⟩ := ApplyEmbeddedPatchesToModule_of_last_pcv T P module_id_data mapped_size g img
    i hsoc hi hid hlast hptm ham
  refine ⟨?_, rfl⟩
  rw [hx]
  unfold applyPcv
  rw [hrow] at hlarge
  simp only [hrow]
  have hoff := hlarge off (by simp)
  apply copyAtEach_holds pre post off (u32Bytes GetEmcClock) _
    (by simp only [u32Bytes, List.length_cons, List.length_nil]; omega)
  intro o ho
  have h1 := hlarge o (by simp [ho])
  have h2 := hpost o ho
  simp only [u32Bytes, List.length_cons, List.length_nil]
  omega

/-- C16, amended, at a concrete input: `sampleId 0xC2` is `PcvModuleId[1]` of
`sampleTables`, and `0x1E0` is the first offset of the row `EmcFreqOffsets[1]`,
which ends below `mapped_size = 0x1000`. -/
theorem C16_memory_clock_is_written_witness :
    readBytes (ApplyEmbeddedPatchesToModule sampleTables (constSpl true SocType.SocType_Mariko)
      (sampleId 0xC2).data 0x1000 freshSettings blankImage).2.mem 0x1E0 4
      = u32Bytes 1862400 ∧
    GetEmcClock = 1862400 :=
  C16_memory_clock_is_written sampleTables (constSpl true SocType.SocType_Mariko)
    (sampleId 0xC2).data 0x1000 freshSettings blankImage 1 [] [0x1E4] 0x1E0 (by decide) rfl
    (by decide) (by decide) (by intro j h1 h2; simp [sampleTables] at h2; omega) (by decide)
    (by decide) rfl (by decide) (by decide)

/-- C17 as stated fails when the stride `PtmOffsetInterval` is neither a
multiple of 4 nor at least 8: in `narrowPtmTables` the stride is 2, the identity
is `PtmModuleId[0]` and is in no other table, the SoC type is Mariko and the
image is large enough, and the boost-clock word of round 0 at
`PtmEmcOffsetStart[0] + PtmCpuBoostOffset` is not 1963500000 after the call, the
copy of round 1 having overwritten its last two bytes. It also fails when the
product `PtmOffsetInterval * j` exceeds the type in which the code computes it:
in `wideStrideTables` the stride is `2^31 + 1` and the product is computed on 32
bits, the image of `2^36` bytes is large enough for the sixteen rounds, no
boost-clock word overlaps the word of round 0 at `PtmEmcOffsetStart[0]`, and
that word is not 1862400000 after the call, the product of round 2 having
wrapped to 2. -/
theorem C17_stride_breaks_the_words :
    narrowPtmTables.PtmModuleId.getD 0 ⟨[]⟩
      = MakeModuleId narrowPtmTables (sampleId 0xD1).data ∧
    readBytes (ApplyEmbeddedPatchesToModule narrowPtmTables
        (constSpl false SocType.SocType_Mariko) (sampleId 0xD1).data 0x1000 freshSettings
        blankImage).2.mem
      (narrowPtmTables.PtmEmcOffsetStart.getD 0 0 + narrowPtmTables.PtmCpuBoostOffset
        + narrowPtmTables.PtmOffsetInterval * 0) 4
      ≠ u32Bytes 1963500000 ∧
    wideStrideTables.PtmModuleId.getD 0 ⟨[]⟩
      = MakeModuleId wideStrideTables (sampleId 0xD1).data ∧
    wideStrideTables.PtmEmcOffsetStart.getD 0 0 + wideStrideTables.PtmOffsetInterval * 15 + 8
      ≤ 0x1000000000 ∧
    wideStrideTables.PtmEmcOffsetStart.getD 0 0 + 4
      ≤ wideStrideTables.PtmEmcOffsetStart.getD 0 0 + wideStrideTables.PtmCpuBoostOffset ∧
    readBytes (ApplyEmbeddedPatchesToModule wideStrideTables
        (constSpl false SocType.SocType_Mariko) (sampleId 0xD1).data 0x1000000000 freshSettings
        blankImage).2.mem
      (wideStrideTables.PtmEmcOffsetStart.getD 0 0 + wideStrideTables.PtmOffsetInterval * 0) 4
      ≠ u32Bytes 1862400000 := by
  refine ⟨by decide, by decide, by decide, by decide, by decide, by decide⟩

/-- C17, amended: the two values are `GetEmcClock() * 1000 = 1862400000` and
`GetCpuBoostClock() * 1000 = 1963500000`, and neither product wraps modulo
`2^32`. On Mariko, when the identity of the module is `PtmModuleId[i]`, is at no
later index of `PtmModuleId` and is not in `AmModuleId`, when the image is large
enough (the last word of each of the two loops ends at or below `mapped_size`, a
`size_t`), when the product `PtmOffsetInterval * 15` does not exceed the type in
which the code computes it, and when the stride `PtmOffsetInterval` is a
multiple of 4 or at least 8, then after the call: for `j` in `0, 1` the words at
`PtmEmcOffsetStart[i] + PtmCpuBoostOffset + PtmOffsetInterval * j` and four
bytes further are 1963500000; and for `j < 16` the words at
`PtmEmcOffsetStart[i] + PtmOffsetInterval * j` and four bytes further are
1862400000 wherever no boost-clock word overlaps them. -/
theorem C17_secondary_clock_words (T : Tables) (P : Spl) (module_id_data : List Byte)
    (mapped_size : Nat) (g : Settings) (img : Image) (i : Nat)
    (hsz : mapped_size < 2 ^ 64)
    (hsoc : P.GetSocType = SocType.SocType_Mariko) (hi : i < T.PtmModuleId.length)
    (hid : T.PtmModuleId.getD i ⟨[]⟩ = MakeModuleId T module_id_data)
    (hlast : ∀ j, i < j → j < T.PtmModuleId.length →
      T.PtmModuleId.getD j ⟨[]⟩ ≠ MakeModuleId T module_id_data)
    (ham : MakeModuleId T module_id_data ∉ T.AmModuleId)
    (hlarge : T.PtmEmcOffsetStart.getD i 0 + T.PtmOffsetInterval * 15 + 8 ≤ mapped_size ∧
      T.PtmEmcOffsetStart.getD i 0 + T.PtmCpuBoostOffset + T.PtmOffsetInterval * 1 + 8
        ≤ mapped_size)
    (hprod : T.PtmOffsetInterval * 15 < 2 ^ T.PtmOffsetInterval_bits)
    (hI : T.PtmOffsetInterval % 4 = 0 ∨ 8 ≤ T.PtmOffsetInterval) :
    (GetEmcClock * 1000 = 1862400000 ∧ GetEmcClock * 1000 % 2 ^ 32 = 1862400000 ∧
      GetCpuBoostClock * 1000 = 1963500000 ∧ GetCpuBoostClock * 1000 % 2 ^ 32 = 1963500000) ∧
    (∀ j, j < 2 →
      readBytes (ApplyEmbeddedPatchesToModule T P module_id_data mapped_size g img).2.mem
        (T.PtmEmcOffsetStart.getD i 0 + T.PtmCpuBoostOffset + T.PtmOffsetInterval * j) 4
        = u32Bytes 1963500000 ∧
      readBytes (ApplyEmbeddedPatchesToModule T P module_id_data mapped_size g img).2.mem
        (T.PtmEmcOffsetStart.getD i 0 + T.PtmCpuBoostOffset + T.PtmOffsetInterval * j + 4) 4
        = u32Bytes 1963500000) ∧
    (∀ j, j < 16 → ∀ a,
      (a = T.PtmEmcOffsetStart.getD i 0 + T.PtmOffsetInterval * j ∨
        a = T.PtmEmcOffsetStart.getD i 0 + T.PtmOffsetInterval * j + 4) →
      (∀ k, k < 2 → ∀ b,
        (b = T.PtmEmcOffsetStart.getD i 0 + T.PtmCpuBoostOffset + T.PtmOffsetInterval * k ∨
          b = T.PtmEmcOffsetStart.getD i 0 + T.PtmCpuBoostOffset + T.PtmOffsetInterval * k + 4) →
        b + 4 ≤ a ∨ a + 4 ≤ b) →
      readBytes (ApplyEmbeddedPatchesToModule T P module_id_data mapped_size g img).2.mem a 4
        = u32Bytes 1862400000) := by
  obtain ⟨x, hx⟩ := ApplyEmbeddedPatchesToModule_of_last_ptm T P module_id_data mapped_size g img
    i hsoc hi hid hlast ham
  have hemc : applyPtmEmc T 1862400000 i = fun acc j =>
      memcpy (memcpy acc
        (T.PtmEmcOffsetStart.getD i 0 + T.PtmOffsetInterval * j % 2 ^ T.PtmOffsetInterval_bits)
        (u32Bytes 1862400000) 4)
        (T.PtmEmcOffsetStart.getD i 0 + T.PtmOffsetInterval * j % 2 ^ T.PtmOffsetInterval_bits
          + 4) (u32Bytes 1862400000) 4 :=
    rfl
  have hboost : applyPtmBoost T 1963500000 i = fun acc j =>
      memcpy (memcpy acc
        (T.PtmEmcOffsetStart.getD i 0 + T.PtmCpuBoostOffset
          + T.PtmOffsetInterval * j % 2 ^ T.PtmOffsetInterval_bits)
        (u32Bytes 1963500000) 4)
        (T.PtmEmcOffsetStart.getD i 0 + T.PtmCpuBoostOffset
          + T.PtmOffsetInterval * j % 2 ^ T.PtmOffsetInterval_bits + 4)
        (u32Bytes 1963500000) 4 :=
    rfl
  have hM16 : ∀ j, j < 16 → T.PtmOffsetInterval * j < 2 ^ T.PtmOffsetInterval_bits :=
    fun j hj => Nat.lt_of_le_of_lt (Nat.mul_le_mul_left _ (by omega)) hprod
  have hM2 : ∀ j, j < 2 → T.PtmOffsetInterval * j < 2 ^ T.PtmOffsetInterval_bits :=
    fun j hj => hM16 j (by omega)
  have hfit16 : ∀ j, j < 16 →
      T.PtmEmcOffsetStart.getD i 0 + T.PtmOffsetInterval * j + 8 ≤ 2 ^ 64 := by
    intro j hj
    have hle : T.PtmOffsetInterval * j ≤ T.PtmOffsetInterval * 15 :=
      Nat.mul_le_mul_left _ (by omega)
    omega
  have hfit2 : ∀ j, j < 2 →
      T.PtmEmcOffsetStart.getD i 0 + T.PtmCpuBoostOffset + T.PtmOffsetInterval * j + 8
        ≤ 2 ^ 64 := by
    intro j hj
    have hle : T.PtmOffsetInterval * j ≤ T.PtmOffsetInterval * 1 :=
      Nat.mul_le_mul_left _ (by omega)
    omega
  refine ⟨⟨by decide, by decide, by decide, by decide⟩, ?_, ?_⟩
  · intro j hj
    rw [hx]
    unfold applyPtm
    simp only [hboost]
    exact twoWordLoop_holds _ _ _ (u32Bytes 1963500000) rfl hI j _ 2 hj hM2 hfit2
  · intro j hj a ha hfree
    rw [hx]
    unfold applyPtm
    simp only [hboost]
    rw [twoWordLoop_frame _ _ _ a (u32Bytes 1963500000) _ 2 hM2 hfit2 hfree]
    simp only [hemc]
    have h := twoWordLoop_holds (T.PtmEmcOffsetStart.getD i 0) T.PtmOffsetInterval
      (2 ^ T.PtmOffsetInterval_bits) (u32Bytes 1862400000) rfl hI j x 16 hj hM16 hfit16
    rcases ha with rfl | rfl
    · exact h.1
    · exact h.2

/-- C17, amended, at a concrete input: `sampleId 0xD1` is `PtmModuleId[0]` of
`sampleTables`, where the stride is `0x20`, the first offset `0x400` and the
boost-clock offset 8; the last word ends at `0x5E8`, below `mapped_size`. -/
theorem C17_secondary_clock_words_witness :
    readBytes (ApplyEmbeddedPatchesToModule sampleTables (constSpl true SocType.SocType_Mariko)
      (sampleId 0xD1).data 0x1000 freshSettings blankImage).2.mem (0x400 + 0x8 + 0x20 * 1) 4
      = u32Bytes 1963500000 ∧
    readBytes (ApplyEmbeddedPatchesToModule sampleTables (constSpl true SocType.SocType_Mariko)
      (sampleId 0xD1).data 0x1000 freshSettings blankImage).2.mem (0x400 + 0x20 * 15) 4
      = u32Bytes 1862400000 :=
  have h := C17_secondary_clock_words sampleTables (constSpl true SocType.SocType_Mariko)
    (sampleId 0xD1).data 0x1000 freshSettings blankImage 0 (by decide) rfl (by decide)
    (by decide) (by intro j h1 h2; simp [sampleTables] at h2; omega) (by decide) (by decide)
    (by decide) (by decide)
  ⟨(h.2.1 1 (by decide)).1,
    h.2.2 15 (by decide) (0x400 + 0x20 * 15) (Or.inl rfl)
      (by
        intro k hk b hb
        have hk2 : k = 0 ∨ k = 1 := by omega
        rcases hk2 with rfl | rfl <;> rcases hb with rfl | rfl <;> decide)⟩

/-- C18, where the code departs from the claim: the sum of line 149 is a 64-bit
sum and wraps. With the entry `offset = 2^64 - 1`, `size = 2` in a matching set,
the setting on and `mapped_size = 0x1000`, the true end `2^64 + 1` of the entry
exceeds `mapped_size`, yet the check passes (the sum is 1) and the entry is
copied: its first byte lands on the index `2^64 - 1`, the byte before the image,
and its second byte on byte 0 of the image. -/
theorem C18_check_wraps_around :
    ¬ ((0xFFFFFFFFFFFFFFFF : Nat) + 2 ≤ 0x1000) ∧
    ((0xFFFFFFFFFFFFFFFF : Nat) + 2) % 2 ^ 64 ≤ 0x1000 ∧
    (ApplyEmbeddedPatchesToModule wrapTables (constSpl true SocType.SocType_Erista)
        (sampleId 0xB2).data 0x1000 freshSettings blankImage).2.log
      = [⟨0xFFFFFFFFFFFFFFFF, [1, 2]⟩] ∧
    (ApplyEmbeddedPatchesToModule wrapTables (constSpl true SocType.SocType_Erista)
        (sampleId 0xB2).data 0x1000 freshSettings blankImage).2.mem 0xFFFFFFFFFFFFFFFF = 1 := by
  refine ⟨by decide, by decide, by decide, by decide⟩

/-- C19: when `spl::GetSocType()` is not Mariko, the block of lines 158-201,
which holds the loop over `PtmModuleId`, leaves the image as it is; and when
moreover the identity of the module is in no set of `Usb30ForceEnablePatches`
and not in `AmModuleId`, the whole call leaves the image as it is, whether or
not the identity is in `PtmModuleId` and whatever the setting is. -/
theorem C19_secondary_family_gated_by_soc (T : Tables) (P : Spl) (module_id_data : List Byte)
    (mapped_size : Nat) (g : Settings) (img : Image)
    (hsoc : P.GetSocType ≠ SocType.SocType_Mariko)
    (husb : ∀ p ∈ T.Usb30ForceEnablePatches, p.module_id ≠ MakeModuleId T module_id_data)
    (ham : MakeModuleId T module_id_data ∉ T.AmModuleId) :
    applyMarikoPatches T P (MakeModuleId T module_id_data) img = img ∧
    (ApplyEmbeddedPatchesToModule T P module_id_data mapped_size g img).2 = img := by
  refine ⟨applyMarikoPatches_of_other_soc T P _ img hsoc, ?_⟩
  rw [ApplyEmbeddedPatchesToModule_snd,
    applyUsb30ForceEnablePatches_of_no_match T _ mapped_size img husb, ite_self,
    applyMarikoPatches_of_other_soc T P _ img hsoc, applyAmPatches_of_no_match T _ img ham]

/-- C19 at a concrete input: `sampleId 0xD1` is `PtmModuleId[0]` of
`sampleTables` and is in no other table. -/
theorem C19_secondary_family_gated_by_soc_witness :
    MakeModuleId sampleTables (sampleId 0xD1).data ∈ sampleTables.PtmModuleId ∧
    applyMarikoPatches sampleTables (constSpl true SocType.SocType_Erista)
      (MakeModuleId sampleTables (sampleId 0xD1).data) blankImage = blankImage ∧
    (ApplyEmbeddedPatchesToModule sampleTables (constSpl true SocType.SocType_Erista)
      (sampleId 0xD1).data 0x1000 freshSettings blankImage).2 = blankImage :=
  ⟨by decide,
    C19_secondary_family_gated_by_soc sampleTables (constSpl true SocType.SocType_Erista)
      (sampleId 0xD1).data 0x1000 freshSettings blankImage (by decide) (by decide) (by decide)⟩

/-- C20: on Mariko, for every index `i` of `PcvModuleId` that holds the identity
of the module, the call copies to `Reg1MaxGpuOffset[i]` the first
`sizeof(Reg1NewMaxGpuClock[i])` bytes of `Reg1NewMaxGpuClock`, and to
`Reg2MaxGpuOffset[i]` the first `sizeof(Reg2NewMaxGpuClock[i])` bytes of
`Reg2NewMaxGpuClock`: these are element 0 of each array, whatever `i` is. -/
theorem C20_gpu_register_patch_is_element_zero (T : Tables) (P : Spl)
    (module_id_data : List Byte) (mapped_size : Nat) (g : Settings) (img : Image) (i : Nat)
    (hsoc : P.GetSocType = SocType.SocType_Mariko) (hi : i < T.PcvModuleId.length)
    (hid : T.PcvModuleId.getD i ⟨[]⟩ = MakeModuleId T module_id_data) :
    ((⟨T.Reg1MaxGpuOffset.getD i 0, T.Reg1NewMaxGpuClock.getD 0 []⟩ : Write)
      ∈ (ApplyEmbeddedPatchesToModule T P module_id_data mapped_size g img).2.log ∧
    (⟨T.Reg2MaxGpuOffset.getD i 0, T.Reg2NewMaxGpuClock.getD 0 []⟩ : Write)
      ∈ (ApplyEmbeddedPatchesToModule T P module_id_data mapped_size g img).2.log) ∧
    T.Reg1NewMaxGpuClock.getD 0 []
      = T.Reg1NewMaxGpuClock.flatten.take (sizeofElem T.Reg1NewMaxGpuClock) ∧
    T.Reg2NewMaxGpuClock.getD 0 []
      = T.Reg2NewMaxGpuClock.flatten.take (sizeofElem T.Reg2NewMaxGpuClock) := by
  refine ⟨⟨?_, ?_⟩, (take_flatten_sizeofElem _).symm, (take_flatten_sizeofElem _).symm⟩
  · apply hardware_clock_logged T P module_id_data mapped_size g img i hi hsoc hid
    intro x
    rw [applyPcv_log, readSrc_flatten_sizeofElem]
    simp
  · apply hardware_clock_logged T P module_id_data mapped_size g img i hi hsoc hid
    intro x
    rw [applyPcv_log, readSrc_flatten_sizeofElem, readSrc_flatten_sizeofElem]
    simp

/-- C20 at a concrete input: `sampleId 0xC2` is `PcvModuleId[1]` of
`sampleTables`; the bytes copied to `Reg1MaxGpuOffset[1] = 0x1B0` are element 0
of `Reg1NewMaxGpuClock`, which differs from element 1. -/
theorem C20_gpu_register_patch_is_element_zero_witness :
    (⟨0x1B0, [0x31, 0x32]⟩ : Write)
      ∈ (ApplyEmbeddedPatchesToModule sampleTables (constSpl true SocType.SocType_Mariko)
        (sampleId 0xC2).data 0x1000 freshSettings blankImage).2.log ∧
    sampleTables.Reg1NewMaxGpuClock.getD 1 [] ≠ sampleTables.Reg1NewMaxGpuClock.getD 0 [] :=
  ⟨(C20_gpu_register_patch_is_element_zero sampleTables (constSpl true SocType.SocType_Mariko)
      (sampleId 0xC2).data 0x1000 freshSettings blankImage 1 rfl (by decide) (by decide)).1.1,
    by decide⟩

end Ldr
